import Mathlib

/-!
Verification of the OpenClaw knowledge-base chunking, incremental indexing
and hybrid-retrieval engine.

The development shallowly embeds the JavaScript sources:
  - `lib/chunker.js` (`chunkFile`, `buildChunk`, `getOverlap`, `deriveMetadata`)
  - `lib/db.js` (`insertChunks`, `deleteChunksByPath`, `upsertFile`,
    `getFileHash`, `searchFTS`, `searchVector`, `hybridSearch`)
  - `index.js` (the per-file incremental indexing path of `main`)

Machine-independent conventions:
  - character counts are `Nat` (JavaScript string lengths of the inputs used
    here are exact integers);
  - the SHA-256 digest is an explicit function parameter `hashFn` (the digest
    computation is an opaque-to-the-logic library call; every property proved
    here holds for an arbitrary digest function, and witnesses instantiate it
    with a concrete function);
  - relevance scores are exact rationals `ℚ`; the floating-point comparison
    `charCount > maxChars * 1.2` of the source is exact for both budget
    values used (1600 * 1.2 and 1200 * 1.2 evaluate to exactly 1920.0 and
    1440.0 in IEEE double precision), so it is rendered as
    `5 * charCount > 6 * maxChars`.
-/

namespace OpenClawKB

/-! ## Configuration constants (`lib/config.js`) -/

def CHUNK_MAX_CHARS : Nat := 1600

def CHUNK_OVERLAP_CHARS : Nat := 200

/-! ## JavaScript string primitives used by the chunker -/

/-- Auxiliary state machine for JavaScript `String.prototype.split` with a
single-character separator: accumulates the current piece (reversed). -/
def splitOnCharAux (sep : Char) : List Char → List Char → List String
  | [], acc => [String.mk acc.reverse]
  | c :: cs, acc =>
    if c = sep then String.mk acc.reverse :: splitOnCharAux sep cs []
    else splitOnCharAux sep cs (c :: acc)

/-- JavaScript `s.split(sep)` for a one-character separator. Always returns at
least one piece; in particular the empty string splits into `[""]`. -/
def jsSplit (sep : Char) (s : String) : List String :=
  splitOnCharAux sep s.data []

/-- `content.split('\n')` of `chunkFile`. -/
def splitLines (content : String) : List String :=
  jsSplit '\n' content

/-- JavaScript `s.includes(sub)`. -/
def jsIncludes (s sub : String) : Bool :=
  s.data.tails.any (fun t => sub.data.isPrefixOf t)

/-- `relPath.split('.').pop()` of `deriveMetadata` (`pop` of the never-empty
split result is its last element). -/
def extOf (relPath : String) : String :=
  (jsSplit '.' relPath).getLastD ""

/-! ## Metadata derivation (`deriveMetadata` in `lib/chunker.js`) -/

structure Metadata where
  contentType : String
  language : Option String
  category : String
deriving Repr, DecidableEq

/-- The `categoryMap` object literal of `deriveMetadata`. -/
def categoryMap : String → Option String
  | "docs" => some "documentation"
  | "config" => some "config-schema"
  | "gateway" => some "core"
  | "telegram" => some "channels"
  | "channels" => some "channels"
  | "skills" => some "skills"
  | "skill-examples" => some "skills"
  | "agents" => some "core"
  | "memory" => some "core"
  | "infra" => some "infrastructure"
  | "security" => some "security"
  | "hooks" => some "automation"
  | "sessions" => some "core"
  | "providers" => some "integrations"
  | "plugins" => some "plugins"
  | _ => none

/-- `deriveMetadata(relPath, source)`. -/
def deriveMetadata (relPath source : String) : Metadata :=
  let ext := extOf relPath
  let contentType :=
    if ext = "md" then
      (if jsIncludes relPath "skills/" then "skill" else "docs")
    else if ext = "ts" ∨ ext = "js" then
      (if jsIncludes relPath "zod-schema" || jsIncludes relPath "types." then "config" else "code")
    else "unknown"
  let language :=
    if ext = "md" then some "markdown"
    else if ext = "ts" then some "typescript"
    else if ext = "js" then some "javascript"
    else none
  { contentType := contentType
    language := language
    category := (categoryMap source).getD source }

/-! ## Break-condition predicates (the regular expressions of `chunkFile`) -/

/-- One character of the regex class `\s` (the inputs indexed here are ASCII,
where JavaScript and Lean whitespace agree). -/
def isWsChar (c : Char) : Bool := c.isWhitespace

/-- One character of the regex class `\w`, i.e. `[A-Za-z0-9_]`. -/
def isWordChar (c : Char) : Bool := c.isAlphanum || c = '_'

/-- Regex `/^#{1,4}\s/` (a markdown heading line). After a maximal run of `#`
characters of length 1 to 4 the next character must be whitespace; a run of 5
or more can never match because every shorter prefix is followed by `#`. -/
def isHeading (line : String) : Bool :=
  let p := (line.data.takeWhile (fun c => c = '#')).length
  decide (1 ≤ p) && decide (p ≤ 4) &&
    (match line.data.drop p with
     | c :: _ => isWsChar c
     | [] => false)

/-- `line.trim() === ''`: the line consists of whitespace only. -/
def isBlank (line : String) : Bool :=
  line.data.all isWsChar

/-- Consume the optional regex group `(kw\s+)?` at the start of `cs`: if the
literal keyword is present and followed by at least one whitespace character,
both are consumed, otherwise the input is returned unchanged. (No
backtracking is needed: the keywords that may follow never share a first
character with `kw`.) -/
def skipOptKw (kw : List Char) (cs : List Char) : List Char :=
  if kw.isPrefixOf cs then
    let rest := cs.drop kw.length
    let ws := rest.takeWhile isWsChar
    if 1 ≤ ws.length then rest.drop ws.length else cs
  else cs

/-- Match the required regex fragment `kw\s+` at the start of `cs`, returning
the remainder on success. -/
def matchKwWs (kw : List Char) (cs : List Char) : Option (List Char) :=
  if kw.isPrefixOf cs then
    let rest := cs.drop kw.length
    let ws := rest.takeWhile isWsChar
    if 1 ≤ ws.length then some (rest.drop ws.length) else none
  else none

/-- Regex fragment `\w+`: at least one word character here. -/
def matchWordPlus (cs : List Char) : Bool :=
  match cs with
  | c :: _ => isWordChar c
  | [] => false

/-- Regex `/^(export\s+)?(async\s+)?function\s+\w+/`. -/
def isFunctionDecl (line : String) : Bool :=
  let cs := skipOptKw "export".data line.data
  let cs := skipOptKw "async".data cs
  match matchKwWs "function".data cs with
  | some rest => matchWordPlus rest
  | none => false

/-- Regex `/^(export\s+)?class\s+\w+/`. -/
def isClassDecl (line : String) : Bool :=
  let cs := skipOptKw "export".data line.data
  match matchKwWs "class".data cs with
  | some rest => matchWordPlus rest
  | none => false

/-- Regex `/^(export\s+)?(interface|type|enum)\s+\w+/`. -/
def isTypeDecl (line : String) : Bool :=
  let cs := skipOptKw "export".data line.data
  [("interface" : String), "type", "enum"].any (fun kw =>
    match matchKwWs kw.data cs with
    | some rest => matchWordPlus rest
    | none => false)

/-- Regex `/^(export\s+)?const\s+\w+\s*=\s*(async\s+)?\(/`. -/
def isConstFunc (line : String) : Bool :=
  let cs := skipOptKw "export".data line.data
  match matchKwWs "const".data cs with
  | none => false
  | some rest =>
    let w := rest.takeWhile isWordChar
    if w.length = 0 then false
    else
      match (rest.drop w.length).dropWhile isWsChar with
      | '=' :: rest2 =>
        let rest3 := rest2.dropWhile isWsChar
        match skipOptKw "async".data rest3 with
        | '(' :: _ => true
        | _ => false
      | _ => false

/-! ## The chunker (`chunkFile`, `buildChunk`, `getOverlap`) -/

/-- A chunk record as produced by `buildChunk`. The field `lines` is the list
of body lines the stored `text` is built from (`buildChunk` receives it and
joins it into `text`); it is kept explicitly so that line-coverage properties
can be stated. -/
structure Chunk where
  id : String
  path : String
  source : String
  startLine : Nat
  endLine : Nat
  text : String
  hash : String
  contentType : String
  language : Option String
  category : String
  lines : List String
deriving Repr, DecidableEq

/-- `buildChunk(lines, startLine, endLineExclusive, relPath, source, metadata)`:
the stored text is the synthetic path/line-range header followed by the body
lines joined with newlines; the id is the first 12 characters of the digest
plus the start line. -/
def buildChunk (hashFn : String → String) (lines : List String)
    (startLine endLineExclusive : Nat) (relPath source : String) (md : Metadata) : Chunk :=
  let text := "// File: " ++ relPath ++ " (lines " ++ toString startLine ++ "-"
      ++ toString endLineExclusive ++ ")\n" ++ String.intercalate "\n" lines
  let hash := hashFn text
  let id := String.mk (hash.data.take 12) ++ "-" ++ toString startLine
  { id := id
    path := relPath
    source := source
    startLine := startLine
    endLine := endLineExclusive
    text := text
    hash := hash
    contentType := md.contentType
    language := md.language
    category := md.category
    lines := lines }

/-- The backward walk of `getOverlap`: accumulate `length + 1` per line
(taken from the end of the chunk, so the input here is reversed) and stop
before the line that pushes the running count above the budget. -/
def overlapTake (budget : Nat) : Nat → List String → List String
  | _, [] => []
  | acc, l :: rest =>
    if acc + l.length + 1 > budget then []
    else l :: overlapTake budget (acc + l.length + 1) rest

/-- `getOverlap(chunkLines, chunkStart, currentLineIndex)` — the trailing
slice of the just-emitted chunk carried into the next chunk, and the new
chunk's start line. (The `chunkStart` parameter is unused in the source as
well.) -/
def getOverlap (chunkLines : List String) (_chunkStart currentLineIndex : Nat) :
    List String × Nat :=
  let overlapLines := (overlapTake CHUNK_OVERLAP_CHARS 0 chunkLines.reverse).reverse
  (overlapLines, currentLineIndex + 1 - overlapLines.length)

/-- The running character count of a line buffer: each line contributes its
length plus one for the newline, exactly as accumulated by `chunkFile`. -/
def lineChars (lines : List String) : Nat :=
  lines.foldl (fun s l => s + l.length + 1) 0

/-- The main loop of `chunkFile`, one step per input line. State: remaining
lines, current buffer `chunkLines`, its 1-indexed `chunkStart`, the running
`charCount` and the number `i` of lines consumed so far (the 0-based index of
the line being processed). After the loop the final nonempty buffer is
emitted with end line `lines.length`. -/
def chunkLoop (hashFn : String → String) (relPath source : String) (md : Metadata)
    (isCodeFile : Bool) (maxChars : Nat) :
    List String → List String → Nat → Nat → Nat → List Chunk
  | [], chunkLines, chunkStart, _charCount, i =>
    if chunkLines.length > 0 then
      [buildChunk hashFn chunkLines chunkStart i relPath source md]
    else []
  | line :: rest, chunkLines, chunkStart, charCount, i =>
    let lineLen := line.length + 1
    if charCount + lineLen > maxChars ∧ chunkLines.length > 0 then
      let strong := isCodeFile &&
        (isFunctionDecl line || isClassDecl line || isTypeDecl line || isConstFunc line)
      let weak := isHeading line || isBlank line
      let shouldBreak := strong || (!isCodeFile && weak) || decide (5 * charCount > 6 * maxChars)
      if shouldBreak then
        let c := buildChunk hashFn chunkLines chunkStart i relPath source md
        let ov := getOverlap chunkLines chunkStart i
        c :: chunkLoop hashFn relPath source md isCodeFile maxChars rest
          (ov.1 ++ [line]) ov.2 (lineChars ov.1 + lineLen) (i + 1)
      else
        chunkLoop hashFn relPath source md isCodeFile maxChars rest
          (chunkLines ++ [line]) chunkStart (charCount + lineLen) (i + 1)
    else
      chunkLoop hashFn relPath source md isCodeFile maxChars rest
        (chunkLines ++ [line]) chunkStart (charCount + lineLen) (i + 1)

/-- `chunkFile` on an already-split line list: the guard on `lines.length`,
the metadata derivation, the per-content-type size budget and the loop. -/
def chunkFileLines (hashFn : String → String) (lines : List String)
    (relPath source : String) : List Chunk :=
  if lines.length = 0 then []
  else
    let md := deriveMetadata relPath source
    let isCodeFile : Bool :=
      md.language == some "typescript" || md.language == some "javascript"
    let maxChars := if isCodeFile then 1200 else CHUNK_MAX_CHARS
    chunkLoop hashFn relPath source md isCodeFile maxChars lines [] 1 0 0

/-- `chunkFile(content, relPath, source)` of `lib/chunker.js`. -/
def chunkFile (hashFn : String → String) (content relPath source : String) : List Chunk :=
  chunkFileLines hashFn (splitLines content) relPath source

/-! ## The Index Store (`lib/db.js`)

The SQLite tables are modelled as lists: `files` and `chunks_vec` have a
primary key (`INSERT OR REPLACE` there deletes the conflicting row and
appends the new one; `ON CONFLICT DO UPDATE` updates in place), `chunks`
likewise has primary key `id`, and the FTS5 virtual table has no uniqueness
constraint, so inserts into it always append. -/

structure FileRec where
  source : String
  hash : String
  indexedAt : Nat
  indexedRelease : Option String
deriving Repr, DecidableEq

/-- A row of the `chunks` table, with the column set of `insertChunks`. -/
structure ChunkRow where
  id : String
  path : String
  source : String
  startLine : Nat
  endLine : Nat
  hash : String
  text : String
  contentType : String
  language : Option String
  category : Option String
  indexedRelease : Option String
deriving Repr, DecidableEq

/-- A row of the `chunks_fts` FTS5 table. -/
structure FtsRow where
  text : String
  id : String
  path : String
  source : String
  contentType : String
  language : Option String
  indexedRelease : Option String
deriving Repr, DecidableEq

/-- The persistent state owned by the Index Store: file manifest, chunk
records, keyword index and vector index. -/
structure Db where
  files : List (String × FileRec)
  chunks : List ChunkRow
  fts : List FtsRow
  vec : List (String × List ℚ)
deriving Repr, DecidableEq

/-- `getFileHash(path)`. -/
def getFileHash (db : Db) (path : String) : Option String :=
  (db.files.find? (fun p => p.1 = path)).map (fun p => p.2.hash)

/-- `upsertFile(path, source, hash, indexedRelease)`; `Date.now()` is the
explicit `now` parameter. `ON CONFLICT(path) DO UPDATE` updates in place. -/
def upsertFile (db : Db) (path source hash : String) (now : Nat)
    (indexedRelease : Option String) : Db :=
  let rec' : FileRec := ⟨source, hash, now, indexedRelease⟩
  { db with files :=
      if db.files.any (fun p => p.1 = path) then
        db.files.map (fun p => if p.1 = path then (path, rec') else p)
      else db.files ++ [(path, rec')] }

/-- `deleteFile(path)`. -/
def deleteFile (db : Db) (path : String) : Db :=
  { db with files := db.files.filter (fun p => p.1 ≠ path) }

/-- `deleteChunksByPath(path)`: collect the ids of the chunks under the path;
if none, return; otherwise delete the chunk rows by path, the FTS rows by id
and — only when the vector backend is loaded — the vector rows by id. -/
def deleteChunksByPath (db : Db) (path : String) (vecLoaded : Bool) : Db :=
  let ids := (db.chunks.filter (fun c => c.path = path)).map (fun c => c.id)
  if ids.length = 0 then db
  else
    let db := { db with chunks := db.chunks.filter (fun c => c.path ≠ path) }
    let db := { db with fts := db.fts.filter (fun r => ¬ ids.contains r.id) }
    if vecLoaded then { db with vec := db.vec.filter (fun p => ¬ ids.contains p.1) }
    else db

/-- The `chunks` row written for a chunk: JavaScript `c.contentType ||
'unknown'`, `c.language || null` and `c.category || null` (the empty string
is falsy). -/
def chunkRowOf (c : Chunk) (indexedRelease : Option String) : ChunkRow :=
  { id := c.id
    path := c.path
    source := c.source
    startLine := c.startLine
    endLine := c.endLine
    hash := c.hash
    text := c.text
    contentType := if c.contentType = "" then "unknown" else c.contentType
    language := c.language.bind (fun l => if l = "" then none else some l)
    category := if c.category = "" then none else some c.category
    indexedRelease := indexedRelease }

/-- The `chunks_fts` row written for a chunk. -/
def ftsRowOf (c : Chunk) (indexedRelease : Option String) : FtsRow :=
  { text := c.text
    id := c.id
    path := c.path
    source := c.source
    contentType := if c.contentType = "" then "unknown" else c.contentType
    language := c.language.bind (fun l => if l = "" then none else some l)
    indexedRelease := indexedRelease }

/-- `embeddings[i]` with JavaScript semantics: an index beyond the array
yields `undefined` (`none`); a missing element is also `none`. -/
def embGet (embeddings : List (Option (List ℚ))) (i : Nat) : Option (List ℚ) :=
  embeddings.getD i none

/-- Which writes the storage layer fails, per position in the batch: the
chunk-record insert, the keyword-index insert, or the vector-index insert. -/
structure WriteFailures where
  chunkFail : Nat → Bool
  ftsFail : Nat → Bool
  vecFail : Nat → Bool

def noFailures : WriteFailures :=
  ⟨fun _ => false, fun _ => false, fun _ => false⟩

/-- The body of the `insertChunks` transaction, one iteration per chunk:
the chunk-record write (a failure escapes to the rollback handler), the
keyword-index write (a failure is caught, logged and skipped) and the
vector-index write, attempted only when the backend is loaded and
`embeddings[i]` is truthy (a failure escapes to the rollback handler). -/
def insertLoop (vecLoaded : Bool) (wf : WriteFailures) (rel : Option String)
    (embeddings : List (Option (List ℚ))) : Db → Nat → List Chunk → Except Unit Db
  | db, _, [] => .ok db
  | db, i, c :: cs =>
    if wf.chunkFail i then .error ()
    else
      let db := { db with chunks := db.chunks.filter (fun r => r.id ≠ c.id) ++ [chunkRowOf c rel] }
      let db := if wf.ftsFail i then db else { db with fts := db.fts ++ [ftsRowOf c rel] }
      match (if vecLoaded then embGet embeddings i else none) with
      | some e =>
        if wf.vecFail i then .error ()
        else insertLoop vecLoaded wf rel embeddings
          { db with vec := db.vec.filter (fun p => p.1 ≠ c.id) ++ [(c.id, e)] } (i + 1) cs
      | none => insertLoop vecLoaded wf rel embeddings db (i + 1) cs

/-- `insertChunks(chunks, embeddings, indexedRelease)`: `BEGIN`, the insert
loop, `COMMIT`; on an uncaught error the transaction is rolled back — the
database reverts to its state at `BEGIN` — and the error is rethrown
(`some ()` in the second component). -/
def insertChunks (db : Db) (chunks : List Chunk) (embeddings : List (Option (List ℚ)))
    (indexedRelease : Option String) (vecLoaded : Bool) (wf : WriteFailures) :
    Db × Option Unit :=
  match insertLoop vecLoaded wf indexedRelease embeddings db 0 chunks with
  | .ok db2 => (db2, none)
  | .error _ => (db, some ())

/-! ## The per-file indexing path of `main` (`index.js`) -/

inductive FileAction where
  | isNew
  | updated
  | skipped
deriving Repr, DecidableEq

/-- The per-file indexing path of `main`: hash the raw content; if a prior
manifest hash matches and `--force` is unset, count the file as skipped and
touch nothing. Otherwise delete the old chunks (when the file was seen
before), re-chunk, upsert the manifest entry with the new hash, embed the
chunk texts and insert all representations through `insertChunks`. `main`
batches the embed/insert over the files of one source; instantiating the
batch with the single changed file gives that file's effect. The third
component reports a fatal insert error. -/
def indexFile (db : Db) (content relPath source : String) (force : Bool)
    (release : Option String) (now : Nat) (hashFn : String → String)
    (embedOf : String → Option (List ℚ)) (vecLoaded : Bool) (wf : WriteFailures) :
    Db × FileAction × Option Unit :=
  let fileHash := hashFn content
  let existingHash := getFileHash db relPath
  if ¬ force ∧ existingHash = some fileHash then (db, .skipped, none)
  else
    let action := if existingHash.isSome then FileAction.updated else FileAction.isNew
    let db := if existingHash.isSome then deleteChunksByPath db relPath vecLoaded else db
    let chunks := chunkFile hashFn content relPath source
    let db := upsertFile db relPath source fileHash now release
    if chunks.length = 0 then (db, action, none)
    else
      let r := insertChunks db chunks (chunks.map (fun c => embedOf c.text)) release vecLoaded wf
      (r.1, action, r.2)

/-! ## Search primitives and hybrid retrieval (`lib/db.js`) -/

/-- A ranked search result: only the chunk identifier and the score take part
in the fusion logic; the metadata columns are copied through unchanged by the
source and are elided here. -/
structure SR where
  id : String
  score : ℚ
deriving Repr, DecidableEq

/-- `bm25RankToScore(rank)`; the BM25 rank statistic is an exact rational
here, hence always finite. -/
def bm25RankToScore (rank : ℚ) : ℚ :=
  1 / (1 + |rank|)

/-- A candidate row the FTS engine returns for a query, in the engine's rank
order. -/
structure FtsCandidate where
  id : String
  rank : ℚ
deriving Repr, DecidableEq

/-- `searchFTS(query, limit, ...)` downstream of the FTS engine: the engine's
full ranked candidate list for the tokenized and filtered query is the
`ranking` parameter; the SQL `LIMIT` takes `3 * limit` candidates, each rank
statistic is converted to a bounded score, and `.slice(0, limit)` keeps at
most `limit` rows. -/
def searchFTS (ranking : List FtsCandidate) (limit : Nat) : List SR :=
  ((ranking.take (3 * limit)).map (fun r => SR.mk r.id (bm25RankToScore r.rank))).take limit

/-- `searchVector` when the vector backend is unavailable (`!vecLoaded`): the
empty result list rather than a failure. -/
def searchVectorUnavailable : List SR := []

/-- JavaScript `Map.prototype.set`: an existing key is updated in place,
keeping its insertion position; a new key is appended. -/
def mapSet (m : List (String × β)) (k : String) (v : β) : List (String × β) :=
  if m.any (fun p => p.1 = k) then m.map (fun p => if p.1 = k then (k, v) else p)
  else m ++ [(k, v)]

/-- JavaScript `Map.prototype.get`. -/
def mapGet (m : List (String × β)) (k : String) : Option β :=
  (m.find? (fun p => p.1 = k)).map (fun p => p.2)

/-- The 1-based rank maps of `hybridSearch`:
`results.forEach((r, idx) => ranks.set(r.id, idx + 1))`. -/
def ranksOf (rs : List SR) : List (String × Nat) :=
  rs.enum.foldl (fun m p => mapSet m p.2.id (p.1 + 1)) []

/-- A value of the `merged` map of `hybridSearch` (the score passthrough
fields are dropped: the output score is recomputed from the ranks alone). -/
structure MergedEntry where
  id : String
  vectorRank : Option Nat
  textRank : Option Nat
deriving Repr, DecidableEq

/-- The `merged` map of `hybridSearch`: vector results are inserted first
with their vector rank; keyword results then either update the existing
entry's text rank in place or are appended as keyword-only entries. -/
def mergedMap (vecResults ftsResults : List SR) : List (String × MergedEntry) :=
  let vectorRanks := ranksOf vecResults
  let textRanks := ranksOf ftsResults
  let m := vecResults.foldl
    (fun m r => mapSet m r.id ⟨r.id, mapGet vectorRanks r.id, none⟩) []
  ftsResults.foldl
    (fun m r =>
      match mapGet m r.id with
      | some e => mapSet m r.id { e with textRank := mapGet textRanks r.id }
      | none => mapSet m r.id ⟨r.id, none, mapGet textRanks r.id⟩) m

/-- The Reciprocal Rank Fusion score of a merged entry, with the standard
smoothing constant 60: `1/(60 + rank)` per present component, 0 otherwise. -/
def rrfScore (e : MergedEntry) : ℚ :=
  (match e.vectorRank with
   | some rk => 1 / ((60 : ℚ) + rk)
   | none => 0) +
  (match e.textRank with
   | some rk => 1 / ((60 : ℚ) + rk)
   | none => 0)

/-- Stable insertion into a descending-sorted list: the element moves past
entries with a strictly larger score and lands before the first entry whose
score is not larger, so earlier (first-encountered) elements win ties. -/
def insertDesc (x : SR) : List SR → List SR
  | [] => [x]
  | y :: ys => if y.score > x.score then y :: insertDesc x ys else x :: y :: ys

/-- A stable descending sort by score, modelling `results.sort((a, b) =>
b.score - a.score)` (`Array.prototype.sort` is guaranteed stable). -/
def sortByScoreDesc : List SR → List SR
  | [] => []
  | x :: xs => insertDesc x (sortByScoreDesc xs)

/-- `hybridSearch` (lines 443-510 of `lib/db.js`) downstream of the two
search primitives, whose result lists (each requested with `2 * limit`) are
the first two parameters: build the 1-based rank maps, merge by identifier,
score by Reciprocal Rank Fusion, sort stably by descending score and return
the first `limit` results. -/
def hybridSearch (vecResults ftsResults : List SR) (limit : Nat) : List SR :=
  let results := (mergedMap vecResults ftsResults).map (fun p => SR.mk p.2.id (rrfScore p.2))
  (sortByScoreDesc results).take limit

/-- The rank-fusion component of an identifier with respect to one candidate
identifier list, as the specification words it: `1/(60 + rank)` where `rank`
is the 1-based position in the list, and 0 when absent. -/
def rrfComponent (l : List String) (i : String) : ℚ :=
  match l.findIdx? (fun j => j = i) with
  | some k => (1 : ℚ) / ((60 : ℚ) + ((k + 1 : Nat) : ℚ))
  | none => 0

/-- The fused ranking exactly as the specification words it: every distinct
identifier of either list in first-encounter order (vector-list order first,
then keyword-only additions), scored `1/(60 + vectorRank)` plus
`1/(60 + textRank)` with 1-based ranks and 0 for an absent component, stably
sorted by descending fused score and truncated to `limit`. -/
def rrfSpec (vecResults ftsResults : List SR) (limit : Nat) : List SR :=
  let vids := vecResults.map (fun r => r.id)
  let tids := ftsResults.map (fun r => r.id)
  let ids := vids ++ tids.filter (fun i => ¬ vids.contains i)
  let scored := ids.map (fun i => SR.mk i (rrfComponent vids i + rrfComponent tids i))
  (sortByScoreDesc scored).take limit

/-! ## Specification-side measures on chunk lists -/

/-- The concatenation of the chunks' non-overlapping parts: the first chunk
contributes all its lines (called with `prevEnd = 0`), every later chunk its
lines after the leading overlap shared with its predecessor (the lines up to
the predecessor's end line). -/
def nonOverlapCat : Nat → List Chunk → List String
  | _, [] => []
  | prevEnd, c :: cs => c.lines.drop (prevEnd + 1 - c.startLine) ++ nonOverlapCat c.endLine cs

/-- The leading overlap region of chunk `c'` relative to its predecessor `c`:
the leading lines of `c'` up to and including the predecessor's last line. -/
def overlapRegion (c c' : Chunk) : List String :=
  c'.lines.take (c.endLine + 1 - c'.startLine)

/-- The character count of a line list as accumulated by `getOverlap`:
length plus one (for the newline) per line. -/
def lineCharSum (l : List String) : Nat :=
  (l.map (fun s => s.length + 1)).sum

/-- What the code guarantees between consecutive chunks: the leading overlap
region of the successor weighs at most the overlap budget, and it is nonempty
whenever the predecessor's last line alone fits into the budget (the backward
walk of `getOverlap` always carries that line in that case). -/
def overlapOk (c c' : Chunk) : Prop :=
  lineCharSum (overlapRegion c c') ≤ CHUNK_OVERLAP_CHARS ∧
  (∀ l, c.lines.getLast? = some l → l.length + 1 ≤ CHUNK_OVERLAP_CHARS →
    0 < lineCharSum (overlapRegion c c'))

/-- The claim's wording of the overlap guarantee (spec-side, for comparison):
the overlap is bounded by the budget and strictly positive whenever the
source has at least 2 lines before the break point. -/
def overlapOkClaim (c c' : Chunk) : Prop :=
  lineCharSum (overlapRegion c c') ≤ CHUNK_OVERLAP_CHARS ∧
  (2 ≤ c.endLine → 0 < lineCharSum (overlapRegion c c'))

/-! ## Reference shapes for the insert transaction

Explicit forms of the three table states produced by a committing
`insertChunks` run, used to state what the transaction writes. -/

/-- Upserting the chunk rows of a batch into the `chunks` table in order
(`INSERT OR REPLACE` by primary key `id`). -/
def upsertChunkRows (rel : Option String) (rows : List ChunkRow) : List Chunk → List ChunkRow
  | [] => rows
  | c :: cs => upsertChunkRows rel (rows.filter (fun r => r.id ≠ c.id) ++ [chunkRowOf c rel]) cs

/-- The keyword-index rows appended by a committing run whose keyword write
fails exactly at the positions given by `ftsFail` (those rows are skipped). -/
def ftsRowsFiltered (ftsFail : Nat → Bool) (rel : Option String) : Nat → List Chunk → List FtsRow
  | _, [] => []
  | i, c :: cs =>
    (if ftsFail i then [] else [ftsRowOf c rel]) ++ ftsRowsFiltered ftsFail rel (i + 1) cs

/-- Upserting the vector rows of a batch: only chunks whose embedding is
present (and only when the backend is loaded) get a vector entry. -/
def upsertVecRows (vecLoaded : Bool) (embeddings : List (Option (List ℚ))) :
    Nat → List (String × List ℚ) → List Chunk → List (String × List ℚ)
  | _, rows, [] => rows
  | i, rows, c :: cs =>
    match (if vecLoaded then embGet embeddings i else none) with
    | some e => upsertVecRows vecLoaded embeddings (i + 1)
        (rows.filter (fun p => p.1 ≠ c.id) ++ [(c.id, e)]) cs
    | none => upsertVecRows vecLoaded embeddings (i + 1) rows cs

/-! ## Concrete data for witnesses, counterexamples and failing-input
evaluations -/

/-- A concrete stand-in for the digest function in closed evaluations (all
properties hold for an arbitrary digest, so the identity suffices). -/
def hashId : String → String := fun s => s

/-- A concrete embedder that returns a vector for every text. -/
def embConst : String → Option (List ℚ) := fun _ => some [1]

def dbEmpty : Db := ⟨[], [], [], []⟩

/-- A previously indexed chunk row for the C1 failing input. -/
def rowC1 : ChunkRow :=
  { id := "oldid", path := "p.md", source := "docs", startLine := 1, endLine := 1,
    hash := "oh", text := "old", contentType := "docs", language := some "markdown",
    category := some "documentation", indexedRelease := none }

def ftsRowC1 : FtsRow :=
  { text := "old", id := "oldid", path := "p.md", source := "docs",
    contentType := "docs", language := some "markdown", indexedRelease := none }

/-- The pre-run database of the C1 failing input: `p.md` was indexed earlier
with manifest hash `"OLDHASH"` and has a chunk in all three stores. -/
def dbC1 : Db :=
  ⟨[("p.md", ⟨"docs", "OLDHASH", 0, none⟩)], [rowC1], [ftsRowC1], [("oldid", [1])]⟩

/-- A storage failure on the first chunk-record write of the transaction. -/
def failFirstChunk : WriteFailures :=
  ⟨fun i => i == 0, fun _ => false, fun _ => false⟩

/-- The database after the failing C1 run. -/
def dbC1after : Db :=
  (indexFile dbC1 "new content" "p.md" "docs" false none 5 hashId embConst true failFirstChunk).1

/-- A vector-index write failure on the first chunk of the transaction. -/
def failVecFirst : WriteFailures :=
  ⟨fun _ => false, fun _ => false, fun i => i == 0⟩

/-- A keyword-index write failure on the first chunk of the transaction. -/
def failFtsFirst : WriteFailures :=
  ⟨fun _ => false, fun i => i == 0, fun _ => false⟩

def chunkA : Chunk :=
  { id := "idA", path := "p", source := "docs", startLine := 1, endLine := 2,
    text := "tA", hash := "hA", contentType := "docs", language := some "markdown",
    category := "documentation", lines := ["x"] }

def chunkB : Chunk :=
  { chunkA with id := "idB", text := "tB", startLine := 3, endLine := 4 }

/-- A database whose manifest hash for `p.md` already matches content `"x"`
under the identity digest. -/
def dbC5 : Db := ⟨[("p.md", ⟨"docs", "x", 0, none⟩)], [], [], []⟩

/-- Concrete vector-search results for the hybrid-search witness. -/
def vecW : List SR := [⟨"a", 9/10⟩, ⟨"b", 8/10⟩, ⟨"c", 7/10⟩]

/-- Concrete keyword-search results for the hybrid-search witness. -/
def ftsW : List SR := [⟨"b", 5/10⟩, ⟨"d", 4/10⟩]

/-- A concrete FTS-engine ranking for the degraded-mode witness. -/
def rankW : List FtsCandidate := [⟨"x", -3⟩, ⟨"y", -2⟩, ⟨"z", -1⟩, ⟨"w", 0⟩]

/-- A 1598-character line: long enough that the size budget forces a break
right after it while it alone exceeds the 200-character overlap budget. -/
def bigLine : String := String.mk (List.replicate 1598 'a')

/-- The C7 failing input, the file `"b\n" ++ bigLine ++ "\n\nc"` (written at
the character level so its line decomposition is definitional): a short
line, the 1598-character line, a blank line (the weak boundary that triggers
the break) and a tail line. -/
def ctC7 : String :=
  String.mk ('b' :: '\n' :: (List.replicate 1598 'a' ++ '\n' :: '\n' :: ['c']))

/-- The first chunk of the C7 failing input: lines 1-2. -/
def c7fst : Chunk :=
  buildChunk hashId ["b", bigLine] 1 2 "x.md" "docs" (deriveMetadata "x.md" "docs")

/-- The second chunk of the C7 failing input: lines 3-4, with an empty
leading overlap because the 1598-character line 2 alone exceeds the
200-character overlap budget. -/
def c7snd : Chunk :=
  buildChunk hashId ["", "c"] 3 4 "x.md" "docs" (deriveMetadata "x.md" "docs")

/-- The single chunk produced for the one-line file `"a"`: both its start and
its end line are 1, and its body is that line — the end line is inclusive. -/
def c9chunk : Chunk :=
  buildChunk hashId ["a"] 1 1 "x.md" "docs" (deriveMetadata "x.md" "docs")

/-! # Theorems -/

/-! ## Association-list lemmas for the map models -/

theorem mapGet_eq_none_iff_any {β} (m : List (String × β)) (k : String) :
    mapGet m k = none ↔ m.any (fun p => p.1 = k) = false := by
  induction m with
  | nil => simp [mapGet]
  | cons q m ih =>
    by_cases hq : q.1 = k
    · simp [mapGet, List.find?_cons, hq]
    · simp [mapGet, List.find?_cons, hq, ih]

theorem mapGet_mapSet_self {β} (m : List (String × β)) (k : String) (v : β) :
    mapGet (mapSet m k v) k = some v := by
  induction m with
  | nil => simp [mapSet, mapGet]
  | cons q m ih =>
    by_cases hq : q.1 = k
    · simp [mapSet, mapGet, List.find?_cons, hq]
    · by_cases hm : m.any (fun p => p.1 = k) = true
      · unfold mapSet at ih ⊢
        rw [if_pos (by simp [List.any_cons, hq, hm])]
        rw [if_pos hm] at ih
        simpa [mapGet, List.find?_cons, hq] using ih
      · unfold mapSet at ih ⊢
        rw [if_neg (by simp [List.any_cons, hq]; simpa using hm)]
        rw [if_neg hm] at ih
        simpa [mapGet, List.find?_cons, hq] using ih

theorem mapSet_of_not_mem {β} (m : List (String × β)) (k : String) (v : β)
    (h : mapGet m k = none) : mapSet m k v = m ++ [(k, v)] := by
  have hany := (mapGet_eq_none_iff_any m k).mp h
  unfold mapSet
  rw [if_neg (by simp [hany])]

/-! ## The insert transaction: characterization lemmas -/

theorem insertLoop_ok (vecLoaded : Bool) (wf : WriteFailures) (rel : Option String)
    (embs : List (Option (List ℚ)))
    (hc : ∀ j, wf.chunkFail j = false) (hv : ∀ j, wf.vecFail j = false) :
    ∀ (cs : List Chunk) (db : Db) (i : Nat),
      insertLoop vecLoaded wf rel embs db i cs =
        .ok ⟨db.files, upsertChunkRows rel db.chunks cs,
             db.fts ++ ftsRowsFiltered wf.ftsFail rel i cs,
             upsertVecRows vecLoaded embs i db.vec cs⟩ := by
  intro cs
  induction cs with
  | nil => intro db i; simp [insertLoop, upsertChunkRows, ftsRowsFiltered, upsertVecRows]
  | cons c cs ih =>
    intro db i
    simp only [insertLoop, hc i, Bool.false_eq_true, if_false]
    cases hemb : (if vecLoaded then embGet embs i else none) with
    | some e =>
      rw [hv i]
      simp only [Bool.false_eq_true, if_false, ih]
      cases hf : wf.ftsFail i <;>
        simp [upsertChunkRows, ftsRowsFiltered, upsertVecRows, hf, hemb, List.append_assoc]
    | none =>
      simp only [ih]
      cases hf : wf.ftsFail i <;>
        simp [upsertChunkRows, ftsRowsFiltered, upsertVecRows, hf, hemb, List.append_assoc]

theorem insertChunks_ok (db : Db) (chunks : List Chunk) (embs : List (Option (List ℚ)))
    (rel : Option String) (vecLoaded : Bool) (wf : WriteFailures)
    (hc : ∀ j, wf.chunkFail j = false) (hv : ∀ j, wf.vecFail j = false) :
    insertChunks db chunks embs rel vecLoaded wf =
      (⟨db.files, upsertChunkRows rel db.chunks chunks,
        db.fts ++ ftsRowsFiltered wf.ftsFail rel 0 chunks,
        upsertVecRows vecLoaded embs 0 db.vec chunks⟩, none) := by
  simp [insertChunks, insertLoop_ok vecLoaded wf rel embs hc hv]

theorem insertLoop_error_of_vecFail (wf : WriteFailures) (rel : Option String)
    (embs : List (Option (List ℚ))) (hc : ∀ j, wf.chunkFail j = false) :
    ∀ (cs : List Chunk) (db : Db) (i j : Nat), i ≤ j → j < i + cs.length →
      wf.vecFail j = true → (embGet embs j).isSome = true →
      insertLoop true wf rel embs db i cs = .error () := by
  intro cs
  induction cs with
  | nil => intro db i j h1 h2 _ _; simp at h2; omega
  | cons c cs ih =>
    intro db i j h1 h2 h3 h4
    simp only [insertLoop, hc i, Bool.false_eq_true, if_false, if_true]
    by_cases hij : j = i
    · subst hij
      obtain ⟨e, he⟩ := Option.isSome_iff_exists.mp h4
      cases hf : wf.ftsFail j <;> simp [hf, he, h3]
    · have hlt : i < j := lt_of_le_of_ne h1 (fun h => hij h.symm)
      cases hemb : embGet embs i with
      | some e =>
        cases hvf : wf.vecFail i
        · cases hf : wf.ftsFail i <;>
            · simp only [hf, hemb, hvf, Bool.false_eq_true, if_false, ite_true, ite_false]
              exact ih _ (i + 1) j (by omega) (by simp at h2 ⊢; omega) h3 h4
        · cases hf : wf.ftsFail i <;> simp [hf, hemb, hvf]
      | none =>
        cases hf : wf.ftsFail i <;>
          · simp only [hf, hemb, Bool.false_eq_true, if_false, ite_true, ite_false]
            exact ih _ (i + 1) j (by omega) (by simp at h2 ⊢; omega) h3 h4

theorem insertChunks_error_of_vecFail (db : Db) (chunks : List Chunk)
    (embs : List (Option (List ℚ))) (rel : Option String) (wf : WriteFailures)
    (hc : ∀ j, wf.chunkFail j = false) (j : Nat) (hj : j < chunks.length)
    (h3 : wf.vecFail j = true) (h4 : (embGet embs j).isSome = true) :
    insertChunks db chunks embs rel true wf = (db, some ()) := by
  unfold insertChunks
  rw [insertLoop_error_of_vecFail wf rel embs hc chunks db 0 j (by omega) (by omega) h3 h4]

/-! ## Manifest lemmas -/

theorem getFileHash_eq_mapGet (db : Db) (p : String) :
    getFileHash db p = (mapGet db.files p).map (fun r => r.hash) := by
  cases h : db.files.find? (fun q => q.1 = p) <;> simp [getFileHash, mapGet, h]

theorem upsertFile_files (db : Db) (p s h : String) (now : Nat) (rel : Option String) :
    (upsertFile db p s h now rel).files = mapSet db.files p ⟨s, h, now, rel⟩ := rfl

theorem getFileHash_upsertFile (db : Db) (p s h : String) (now : Nat) (rel : Option String) :
    getFileHash (upsertFile db p s h now rel) p = some h := by
  rw [getFileHash_eq_mapGet]
  simp [upsertFile_files, mapGet_mapSet_self]

theorem deleteChunksByPath_files (db : Db) (p : String) (v : Bool) :
    (deleteChunksByPath db p v).files = db.files := by
  simp only [deleteChunksByPath]
  split
  · rfl
  · split <;> rfl

/-- Let-free unfolding of `indexFile` (definitional). -/
theorem indexFile_eq (db : Db) (content relPath source : String) (force : Bool)
    (release : Option String) (now : Nat) (hashFn : String → String)
    (embedOf : String → Option (List ℚ)) (vecLoaded : Bool) (wf : WriteFailures) :
    indexFile db content relPath source force release now hashFn embedOf vecLoaded wf =
      if ¬ force ∧ getFileHash db relPath = some (hashFn content) then
        (db, FileAction.skipped, none)
      else if (chunkFile hashFn content relPath source).length = 0 then
        (upsertFile
            (if (getFileHash db relPath).isSome then deleteChunksByPath db relPath vecLoaded
             else db)
            relPath source (hashFn content) now release,
         (if (getFileHash db relPath).isSome then FileAction.updated else FileAction.isNew),
         none)
      else
        ((insertChunks
            (upsertFile
              (if (getFileHash db relPath).isSome then deleteChunksByPath db relPath vecLoaded
               else db)
              relPath source (hashFn content) now release)
            (chunkFile hashFn content relPath source)
            ((chunkFile hashFn content relPath source).map (fun c => embedOf c.text))
            release vecLoaded wf).1,
         (if (getFileHash db relPath).isSome then FileAction.updated else FileAction.isNew),
         (insertChunks
            (upsertFile
              (if (getFileHash db relPath).isSome then deleteChunksByPath db relPath vecLoaded
               else db)
              relPath source (hashFn content) now release)
            (chunkFile hashFn content relPath source)
            ((chunkFile hashFn content relPath source).map (fun c => embedOf c.text))
            release vecLoaded wf).2) := rfl

/-- C5 helper: a no-failure `indexFile` run always succeeds and leaves the
manifest hash of the path equal to the digest of the content. -/
theorem indexFile_noFailures_hash (db : Db) (content relPath source : String)
    (release : Option String) (now : Nat) (hashFn : String → String)
    (embedOf : String → Option (List ℚ)) (vecLoaded : Bool) :
    (indexFile db content relPath source false release now hashFn embedOf vecLoaded noFailures).2.2
        = none ∧
    getFileHash
        (indexFile db content relPath source false release now hashFn embedOf vecLoaded noFailures).1
        relPath = some (hashFn content) := by
  rw [indexFile_eq]
  by_cases hskip :
      ¬ (false : Bool) = true ∧ getFileHash db relPath = some (hashFn content)
  · rw [if_pos hskip]
    exact ⟨rfl, hskip.2⟩
  · rw [if_neg hskip]
    by_cases hz : (chunkFile hashFn content relPath source).length = 0
    · rw [if_pos hz]
      exact ⟨rfl, getFileHash_upsertFile _ relPath source (hashFn content) now release⟩
    · rw [if_neg hz]
      rw [insertChunks_ok _ _ _ _ _ noFailures (fun _ => rfl) (fun _ => rfl)]
      refine ⟨rfl, ?_⟩
      rw [getFileHash_eq_mapGet]
      show (mapGet (upsertFile _ relPath source (hashFn content) now release).files relPath).map
          (fun r => r.hash) = some (hashFn content)
      rw [upsertFile_files, mapGet_mapSet_self]
      rfl

/-! ## C1 -/

/-- C1 (code bug, evaluation at the failing input): a file previously
indexed with manifest hash `"OLDHASH"` changes to content `"new content"`; a
storage failure aborts the chunk-insert transaction. Contrary to the claim,
the file is NOT left at its previous indexed state: the run reports the
error, but the manifest entry already holds the new hash (`upsertFile` ran
before the transaction and is not rolled back), the old chunk rows are gone,
and the next run skips the file instead of re-processing it. -/
theorem c1_rollback_leaves_new_hash :
    (indexFile dbC1 "new content" "p.md" "docs" false none 5 hashId embConst true
        failFirstChunk).2.2 = some () ∧
    getFileHash dbC1 "p.md" = some "OLDHASH" ∧
    getFileHash dbC1after "p.md" = some "new content" ∧
    dbC1after.chunks.filter (fun c => c.path = "p.md") = [] ∧
    (indexFile dbC1after "new content" "p.md" "docs" false none 6 hashId embConst true
        noFailures).2.1 = FileAction.skipped := by
  decide

/-! ## C4 -/

/-- C4 counterexample: with a vector-index write failing for the first chunk
while every chunk-record write succeeds, `insertChunks` does NOT behave like
a keyword-index failure — the transaction is aborted (error reported, state
rolled back) and the other chunk of the file is not committed. -/
theorem c4_counterexample :
    insertChunks dbEmpty [chunkA, chunkB] [some [1], some [1]] none true failVecFirst
        = (dbEmpty, some ()) ∧
    ¬ ((insertChunks dbEmpty [chunkA, chunkB] [some [1], some [1]] none true
          failVecFirst).2 = none ∧
       chunkRowOf chunkB none ∈ (insertChunks dbEmpty [chunkA, chunkB] [some [1], some [1]]
          none true failVecFirst).1.chunks) := by
  decide

/-- C4 amended: a keyword-index write failure is non-fatal — the transaction
commits, every chunk record is written and only the failing keyword rows are
skipped — but a vector-index write failure (unlike a keyword one) aborts the
whole transaction: the database reverts to its pre-transaction state and the
error propagates. -/
theorem c4_vec_failure_fatal (db : Db) (chunks : List Chunk)
    (embs : List (Option (List ℚ))) (rel : Option String) (wf : WriteFailures)
    (hchunk : ∀ j, wf.chunkFail j = false) :
    ((∀ j, wf.vecFail j = false) →
      insertChunks db chunks embs rel true wf =
        (⟨db.files, upsertChunkRows rel db.chunks chunks,
          db.fts ++ ftsRowsFiltered wf.ftsFail rel 0 chunks,
          upsertVecRows true embs 0 db.vec chunks⟩, none)) ∧
    (∀ j, j < chunks.length → wf.vecFail j = true → (embGet embs j).isSome = true →
      insertChunks db chunks embs rel true wf = (db, some ())) := by
  constructor
  · intro hv
    exact insertChunks_ok db chunks embs rel true wf hchunk hv
  · intro j hj h3 h4
    exact insertChunks_error_of_vecFail db chunks embs rel wf hchunk j hj h3 h4

/-- Witness for C4: the amended theorem applied at concrete inputs — a
keyword failure on the first chunk still commits both chunk records, while a
vector failure on the first chunk rolls the whole batch back. -/
theorem c4_witness :
    insertChunks dbEmpty [chunkA, chunkB] [some [1], some [1]] none true failFtsFirst =
      (⟨dbEmpty.files, upsertChunkRows none dbEmpty.chunks [chunkA, chunkB],
        dbEmpty.fts ++ ftsRowsFiltered failFtsFirst.ftsFail none 0 [chunkA, chunkB],
        upsertVecRows true [some [1], some [1]] 0 dbEmpty.vec [chunkA, chunkB]⟩, none) ∧
    insertChunks dbEmpty [chunkA, chunkB] [some [1], some [1]] none true failVecFirst
        = (dbEmpty, some ()) :=
  ⟨(c4_vec_failure_fatal dbEmpty [chunkA, chunkB] [some [1], some [1]] none failFtsFirst
      (fun _ => rfl)).1 (fun _ => rfl),
   (c4_vec_failure_fatal dbEmpty [chunkA, chunkB] [some [1], some [1]] none failVecFirst
      (fun _ => rfl)).2 0 (by decide) (by decide) (by decide)⟩

/-! ## C5 -/

/-- C5: when the stored manifest hash equals the digest of the current
content and the force flag is unset, the indexing run returns the database
unchanged (no re-chunk, no re-embed, chunk records, keyword entries, vector
entries and manifest untouched) and counts the file as skipped; and after
any first no-failure run of a file, the immediate re-run with the same
content reports `skipped` and returns the database of the first run
unchanged — so the chunk identifiers and the chunk count are identical. -/
theorem c5_skip_unchanged (db : Db) (content relPath source : String)
    (release : Option String) (now now2 : Nat) (hashFn : String → String)
    (embedOf : String → Option (List ℚ)) (vecLoaded : Bool) :
    (getFileHash db relPath = some (hashFn content) →
      indexFile db content relPath source false release now hashFn embedOf vecLoaded
        noFailures = (db, FileAction.skipped, none)) ∧
    (∀ db1 act err,
      indexFile db content relPath source false release now hashFn embedOf vecLoaded
        noFailures = (db1, act, err) →
      err = none ∧
      indexFile db1 content relPath source false release now2 hashFn embedOf vecLoaded
        noFailures = (db1, FileAction.skipped, none)) := by
  have hskipped : ∀ (dbx : Db), getFileHash dbx relPath = some (hashFn content) →
      ∀ nw, indexFile dbx content relPath source false release nw hashFn embedOf vecLoaded
        noFailures = (dbx, FileAction.skipped, none) := by
    intro dbx hx nw
    unfold indexFile
    rw [if_pos ⟨by simp, hx⟩]
  constructor
  · intro h; exact hskipped db h now
  · intro db1 act err hrun
    have h := indexFile_noFailures_hash db content relPath source release now hashFn
      embedOf vecLoaded
    rw [hrun] at h
    exact ⟨h.1, hskipped db1 h.2 now2⟩

/-- Witness for C5: a matching-hash database is returned untouched and
skipped; a fresh file indexed twice is skipped the second time with the
database of the first run unchanged. -/
theorem c5_witness :
    indexFile dbC5 "x" "p.md" "docs" false none 7 hashId embConst true noFailures
        = (dbC5, FileAction.skipped, none) ∧
    indexFile (indexFile dbEmpty "hello" "q.md" "docs" false none 1 hashId embConst true
        noFailures).1 "hello" "q.md" "docs" false none 2 hashId embConst true noFailures
      = ((indexFile dbEmpty "hello" "q.md" "docs" false none 1 hashId embConst true
        noFailures).1, FileAction.skipped, none) :=
  ⟨(c5_skip_unchanged dbC5 "x" "p.md" "docs" none 7 2 hashId embConst true).1 (by decide),
   ((c5_skip_unchanged dbEmpty "hello" "q.md" "docs" none 1 2 hashId embConst true).2
      _ _ _ rfl).2⟩

/-! ## C10 -/

theorem upsertChunkRows_mem_preserved (rel : Option String) (row : ChunkRow) :
    ∀ (cs : List Chunk) (rows : List ChunkRow), row ∈ rows → (∀ c ∈ cs, row.id ≠ c.id) →
      row ∈ upsertChunkRows rel rows cs := by
  intro cs
  induction cs with
  | nil => intro rows hmem _; simpa [upsertChunkRows] using hmem
  | cons c cs ih =>
    intro rows hmem hid
    simp only [upsertChunkRows]
    refine ih _ ?_ (fun c' hc' => hid c' (List.mem_cons_of_mem c hc'))
    exact List.mem_append_left _ (List.mem_filter.mpr
      ⟨hmem, by simpa using hid c (List.mem_cons_self c cs)⟩)

theorem mem_upsertChunkRows_self (rel : Option String) :
    ∀ (cs : List Chunk) (rows : List ChunkRow) (c : Chunk), c ∈ cs →
      (cs.map (fun x => x.id)).Nodup → chunkRowOf c rel ∈ upsertChunkRows rel rows cs := by
  intro cs
  induction cs with
  | nil => intro rows c hc; exact absurd hc (List.not_mem_nil c)
  | cons c' cs ih =>
    intro rows c hc hnd
    rcases List.mem_cons.mp hc with hh | ht
    · subst hh
      simp only [upsertChunkRows]
      refine upsertChunkRows_mem_preserved rel _ cs _ (List.mem_append_right _ ?_) ?_
      · exact List.mem_singleton.mpr rfl
      · intro c'' hc''
        have : c.id ∉ cs.map (fun x => x.id) := by
          simpa using (List.nodup_cons.mp hnd).1
        intro he
        have he' : c.id = c''.id := he
        exact this (by rw [he']; exact List.mem_map_of_mem (fun x => x.id) hc'')
    · exact ih _ c ht (List.nodup_cons.mp hnd).2

theorem ftsRowsFiltered_noFail (rel : Option String) :
    ∀ (i : Nat) (cs : List Chunk),
      ftsRowsFiltered (fun _ => false) rel i cs = cs.map (fun c => ftsRowOf c rel) := by
  intro i cs
  induction cs generalizing i with
  | nil => rfl
  | cons c cs ih => simp [ftsRowsFiltered, ih]

theorem upsertVecRows_no_key (embs : List (Option (List ℚ))) (x : String) :
    ∀ (cs : List Chunk) (rows : List (String × List ℚ)) (i : Nat),
      (∀ p ∈ rows, p.1 ≠ x) →
      (∀ (j : Nat) (c : Chunk), cs[j]? = some c → c.id = x → embGet embs (i + j) = none) →
      ∀ p ∈ upsertVecRows true embs i rows cs, p.1 ≠ x := by
  intro cs
  induction cs with
  | nil => intro rows i h1 _ p hp; exact h1 p (by simpa [upsertVecRows] using hp)
  | cons c cs ih =>
    intro rows i h1 h2 p hp
    simp only [upsertVecRows, if_true] at hp
    cases hemb : embGet embs i with
    | some e =>
      rw [hemb] at hp
      refine ih _ (i + 1) ?_ ?_ p hp
      · intro q hq
        rcases List.mem_append.mp hq with hq1 | hq2
        · exact h1 q (List.mem_of_mem_filter hq1)
        · have : q = (c.id, e) := List.mem_singleton.mp hq2
          subst this
          intro he
          have := h2 0 c (by simp) (by simpa using he)
          simp [hemb] at this
      · intro j c' hj he
        have := h2 (j + 1) c' (by simpa using hj) he
        simpa [Nat.add_assoc, Nat.add_comm 1 j] using this
    | none =>
      rw [hemb] at hp
      refine ih _ (i + 1) h1 ?_ p hp
      intro j c' hj he
      have := h2 (j + 1) c' (by simpa using hj) he
      simpa [Nat.add_assoc, Nat.add_comm 1 j] using this

/-- C10: when the embeddings array has no entry at position `i` (a shorter
array or a missing element), the `i`-th chunk's record and keyword-index
entry are still inserted and the transaction commits without error, while
the vector entry for that chunk is silently omitted — chunk records and
vector entries diverge from 1:1 correspondence with no failure reported. -/
theorem c10_missing_embedding_nonfatal (db : Db) (chunks : List Chunk)
    (embeddings : List (Option (List ℚ))) (rel : Option String) (i : Nat)
    (hi : i < chunks.length)
    (hnone : embGet embeddings i = none)
    (hnodup : (chunks.map (fun c => c.id)).Nodup)
    (hfresh : ∀ p ∈ db.vec, p.1 ≠ (chunks.get ⟨i, hi⟩).id) :
    (insertChunks db chunks embeddings rel true noFailures).2 = none ∧
    chunkRowOf (chunks.get ⟨i, hi⟩) rel
        ∈ (insertChunks db chunks embeddings rel true noFailures).1.chunks ∧
    ftsRowOf (chunks.get ⟨i, hi⟩) rel
        ∈ (insertChunks db chunks embeddings rel true noFailures).1.fts ∧
    ∀ p ∈ (insertChunks db chunks embeddings rel true noFailures).1.vec,
      p.1 ≠ (chunks.get ⟨i, hi⟩).id := by
  rw [insertChunks_ok db chunks embeddings rel true noFailures (fun _ => rfl) (fun _ => rfl)]
  refine ⟨rfl, ?_, ?_, ?_⟩
  · exact mem_upsertChunkRows_self rel chunks db.chunks _ (List.get_mem chunks i hi) hnodup
  · show ftsRowOf (chunks.get ⟨i, hi⟩) rel
        ∈ db.fts ++ ftsRowsFiltered noFailures.ftsFail rel 0 chunks
    rw [show noFailures.ftsFail = (fun _ => false) from rfl, ftsRowsFiltered_noFail]
    exact List.mem_append_right _
      (List.mem_map_of_mem (fun c => ftsRowOf c rel) (List.get_mem chunks i hi))
  · refine upsertVecRows_no_key embeddings _ chunks db.vec 0 hfresh ?_
    intro j c hj he
    have hjlen : j < chunks.length := by
      rcases List.getElem?_eq_some_iff.mp hj with ⟨h, _⟩
      exact h
    have hgetj : chunks.get ⟨j, hjlen⟩ = c := by
      have := List.getElem?_eq_getElem hjlen
      rw [hj] at this
      exact (Option.some_inj.mp this.symm)
    have hij : i = j := by
      have hmap : (chunks.map (fun c => c.id)).get ⟨i, by simpa using hi⟩
          = (chunks.map (fun c => c.id)).get ⟨j, by simpa using hjlen⟩ := by
        simp only [List.get_eq_getElem, List.getElem_map]
        have hj' : chunks[j] = c := by
          simpa [List.get_eq_getElem] using hgetj
        rw [hj', he]
        simp [List.get_eq_getElem]
      have := (List.Nodup.get_inj_iff hnodup).mp hmap
      simpa using congrArg Fin.val this
    rw [← hij] at hj ⊢
    simpa using hnone

/-- Witness for C10: a two-chunk batch with a one-element embeddings array —
the second chunk is committed to the chunk and keyword stores, gets no
vector entry, and no error is raised. -/
theorem c10_witness :
    (insertChunks dbEmpty [chunkA, chunkB] [some [1]] none true noFailures).2 = none ∧
    chunkRowOf ([chunkA, chunkB].get ⟨1, by decide⟩) none
        ∈ (insertChunks dbEmpty [chunkA, chunkB] [some [1]] none true noFailures).1.chunks ∧
    ftsRowOf ([chunkA, chunkB].get ⟨1, by decide⟩) none
        ∈ (insertChunks dbEmpty [chunkA, chunkB] [some [1]] none true noFailures).1.fts ∧
    ∀ p ∈ (insertChunks dbEmpty [chunkA, chunkB] [some [1]] none true noFailures).1.vec,
      p.1 ≠ ([chunkA, chunkB].get ⟨1, by decide⟩).id :=
  c10_missing_embedding_nonfatal dbEmpty [chunkA, chunkB] [some [1]] none 1 (by decide)
    (by decide) (by decide) (by intro p hp; exact absurd hp (List.not_mem_nil p))

/-! ## Hybrid retrieval: rank-map and merge lemmas -/

theorem mapGet_append {β} (m1 m2 : List (String × β)) (k : String) :
    mapGet (m1 ++ m2) k = (mapGet m1 k).or (mapGet m2 k) := by
  unfold mapGet
  rw [List.find?_append]
  cases List.find? (fun p => p.1 = k) m1 <;> simp

theorem mapGet_eq_none_of_keys {β} (m : List (String × β)) (k : String)
    (h : ∀ q ∈ m, q.1 ≠ k) : mapGet m k = none := by
  unfold mapGet
  rw [List.find?_eq_none.mpr (by intro q hq; simpa using h q hq)]
  rfl

theorem foldl_mapSet_fresh {α β} (key : α → String) (f : α → β) :
    ∀ (l : List α) (m : List (String × β)),
      (∀ a ∈ l, mapGet m (key a) = none) → (l.map key).Nodup →
      l.foldl (fun m a => mapSet m (key a) (f a)) m = m ++ l.map (fun a => (key a, f a)) := by
  intro l
  induction l with
  | nil => intro m _ _; simp
  | cons a l ih =>
    intro m hfresh hnd
    have hstep : mapSet m (key a) (f a) = m ++ [(key a, f a)] :=
      mapSet_of_not_mem m (key a) (f a) (hfresh a (List.mem_cons_self a l))
    have hrest : ∀ b ∈ l, mapGet (m ++ [(key a, f a)]) (key b) = none := by
      intro b hb
      rw [mapGet_append, hfresh b (List.mem_cons_of_mem a hb)]
      refine mapGet_eq_none_of_keys _ _ ?_
      intro q hq
      have : q = (key a, f a) := List.mem_singleton.mp hq
      subst this
      intro he
      have he' : key a = key b := he
      have hkey : key a ∉ l.map key := by simpa using (List.nodup_cons.mp hnd).1
      exact hkey (by rw [he']; exact List.mem_map_of_mem key hb)
    calc (a :: l).foldl (fun m a => mapSet m (key a) (f a)) m
        = l.foldl (fun m a => mapSet m (key a) (f a)) (m ++ [(key a, f a)]) := by
          simp [List.foldl_cons, hstep]
      _ = (m ++ [(key a, f a)]) ++ l.map (fun a => (key a, f a)) :=
          ih _ hrest (List.nodup_cons.mp hnd).2
      _ = m ++ (a :: l).map (fun a => (key a, f a)) := by simp

theorem mapGet_enumFrom_ranks (rs : List SR) (i : String) :
    ∀ n, mapGet ((List.enumFrom n rs).map (fun p => (p.2.id, p.1 + 1))) i
      = ((rs.map (fun r => r.id)).findIdx? (fun j => j = i) n).map (fun k => k + 1) := by
  induction rs with
  | nil => intro n; rfl
  | cons r rs ih =>
    intro n
    rw [List.enumFrom_cons, List.map_cons, List.map_cons, List.findIdx?_cons]
    by_cases hr : r.id = i
    · rw [if_pos (by simpa using hr)]
      unfold mapGet
      rw [List.find?_cons_of_pos _ (by simpa using hr)]
      rfl
    · rw [if_neg (by simpa using hr)]
      have hskip : mapGet (((n, r).2.id, (n, r).1 + 1)
            :: (List.enumFrom (n + 1) rs).map (fun p => (p.2.id, p.1 + 1))) i
          = mapGet ((List.enumFrom (n + 1) rs).map (fun p => (p.2.id, p.1 + 1))) i := by
        unfold mapGet
        rw [List.find?_cons_of_neg _ (by simpa using hr)]
      rw [hskip]
      exact ih (n + 1)

/-- Under distinct identifiers, the rank map of `hybridSearch` assigns each
identifier its 1-based position in the result list. -/
theorem mapGet_ranksOf (rs : List SR) (h : (rs.map (fun r => r.id)).Nodup) (i : String) :
    mapGet (ranksOf rs) i
      = ((rs.map (fun r => r.id)).findIdx? (fun j => j = i)).map (fun k => k + 1) := by
  have hshape : ranksOf rs = rs.enum.map (fun p => (p.2.id, p.1 + 1)) := by
    have hnd : (rs.enum.map (fun p => p.2.id)).Nodup := by
      have h2 : rs.enum.map (fun p => p.2.id)
          = (rs.enum.map Prod.snd).map (fun r => r.id) := by
        rw [List.map_map]
        rfl
      rw [h2, List.enum_map_snd]
      exact h
    simpa [ranksOf] using
      foldl_mapSet_fresh (fun p => p.2.id) (fun p => p.1 + 1) rs.enum [] (by simp [mapGet]) hnd
  rw [hshape]
  exact mapGet_enumFrom_ranks rs i 0

theorem mapGet_map_entry {γ} (vec : List SR) (g : String → γ) (i : String) :
    mapGet (vec.map (fun v => (v.id, g v.id))) i
      = if (vec.map (fun r => r.id)).contains i then some (g i) else none := by
  induction vec with
  | nil => rfl
  | cons v vec ih =>
    rw [List.map_cons, List.map_cons, List.contains_cons]
    by_cases hv : v.id = i
    · rw [show (i == v.id) = true from beq_iff_eq.mpr hv.symm]
      unfold mapGet
      rw [List.find?_cons_of_pos _ (by simpa using hv)]
      simp [hv]
    · rw [show (i == v.id) = false from beq_eq_false_iff_ne.mpr (fun h => hv h.symm)]
      have hskip : mapGet ((v.id, g v.id) :: vec.map (fun v => (v.id, g v.id))) i
          = mapGet (vec.map (fun v => (v.id, g v.id))) i := by
        unfold mapGet
        rw [List.find?_cons_of_neg _ (by simpa using hv)]
      rw [hskip, ih]
      simp

theorem findIdx?_eq_none_of_not_contains (l : List String) (i : String)
    (h : l.contains i = false) : ∀ n, l.findIdx? (fun j => j = i) n = none := by
  induction l with
  | nil => intro n; simp [List.findIdx?]
  | cons a l ih =>
    intro n
    simp only [List.contains_cons, Bool.or_eq_false_iff] at h
    rw [List.findIdx?_cons, if_neg (by simp only [decide_eq_true_eq]; exact fun hh => (beq_eq_false_iff_ne.mp h.1) hh.symm)]
    exact ih h.2 (n + 1)

/-- The shape of the keyword pass of `hybridSearch`: folding the keyword
results into a map that already holds the vector entries (with text ranks
given by `t`) updates the text rank of every identifier also found by the
vector search and appends the keyword-only identifiers in order. -/
theorem ftsFold_shape (vec : List SR) (vr tr : List (String × Nat))
    (_hvnd : (vec.map (fun r => r.id)).Nodup) :
    ∀ (S : List SR) (t : String → Option Nat) (B : List (String × MergedEntry)),
      (S.map (fun r => r.id)).Nodup →
      (∀ r ∈ S, ∀ q ∈ B, q.1 ≠ r.id) →
      (∀ q ∈ B, (vec.map (fun r => r.id)).contains q.1 = false) →
      S.foldl (fun m r =>
          match mapGet m r.id with
          | some e => mapSet m r.id { e with textRank := mapGet tr r.id }
          | none => mapSet m r.id ⟨r.id, none, mapGet tr r.id⟩)
        (vec.map (fun v => (v.id, ⟨v.id, mapGet vr v.id, t v.id⟩)) ++ B)
      = vec.map (fun v => (v.id, ⟨v.id, mapGet vr v.id,
            if (S.map (fun r => r.id)).contains v.id then mapGet tr v.id else t v.id⟩)) ++ B
        ++ (S.filter (fun r => ¬ (vec.map (fun x => x.id)).contains r.id)).map
            (fun r => (r.id, ⟨r.id, none, mapGet tr r.id⟩)) := by
  intro S
  induction S with
  | nil =>
    intro t B _ _ _
    simp
  | cons r S ih =>
    intro t B hnd hSB hBv
    have hgetA := mapGet_map_entry vec
      (fun x => (⟨x, mapGet vr x, t x⟩ : MergedEntry)) r.id
    simp only [List.foldl_cons]
    by_cases hv : (vec.map (fun x => x.id)).contains r.id = true
    · -- identifier also found by the vector search: in-place text-rank update
      have hget : mapGet (vec.map (fun v => (v.id, ⟨v.id, mapGet vr v.id, t v.id⟩)) ++ B) r.id
          = some ⟨r.id, mapGet vr r.id, t r.id⟩ := by
        rw [mapGet_append, hgetA, if_pos hv]
        rfl
      have hany : ((vec.map (fun v => (v.id, (⟨v.id, mapGet vr v.id, t v.id⟩ : MergedEntry))))
          ++ B).any (fun p => p.1 = r.id) = true := by
        cases hA : ((vec.map (fun v => (v.id, (⟨v.id, mapGet vr v.id, t v.id⟩ : MergedEntry))))
            ++ B).any (fun p => p.1 = r.id)
        · have := (mapGet_eq_none_iff_any _ r.id).mpr hA
          rw [hget] at this
          exact Option.noConfusion this
        · rfl
      have hset : mapSet (vec.map (fun v => (v.id, ⟨v.id, mapGet vr v.id, t v.id⟩)) ++ B) r.id
            (⟨r.id, mapGet vr r.id, mapGet tr r.id⟩ : MergedEntry)
          = vec.map (fun v => (v.id, ⟨v.id, mapGet vr v.id,
              if v.id = r.id then mapGet tr v.id else t v.id⟩)) ++ B := by
        unfold mapSet
        rw [if_pos hany, List.map_append, List.map_map]
        congr 1
        · refine List.map_congr_left ?_
          intro v _
          by_cases hvr : v.id = r.id
          · simp [Function.comp, hvr]
          · simp [Function.comp, hvr]
        · refine (List.map_congr_left ?_).trans (List.map_id B)
          intro q hq
          have hne : q.1 ≠ r.id := hSB r (List.mem_cons_self r S) q hq
          simp [hne]
      rw [hget]
      show List.foldl _
          (mapSet (vec.map (fun v => (v.id, ⟨v.id, mapGet vr v.id, t v.id⟩)) ++ B) r.id
            (⟨r.id, mapGet vr r.id, mapGet tr r.id⟩ : MergedEntry)) S = _
      rw [hset]
      refine Eq.trans (ih (fun x => if x = r.id then mapGet tr x else t x) B
        (List.nodup_cons.mp hnd).2
        (fun r' hr' q hq => hSB r' (List.mem_cons_of_mem r hr') q hq) hBv) ?_
      have hfilter : List.filter (fun r => ¬ (vec.map (fun x => x.id)).contains r.id) (r :: S)
          = List.filter (fun r => ¬ (vec.map (fun x => x.id)).contains r.id) S := by
        rw [List.filter_cons, if_neg (by rw [hv]; simp)]
      rw [hfilter]
      congr 2
      refine List.map_congr_left ?_
      intro v _
      show (v.id, (⟨v.id, mapGet vr v.id,
          if (S.map (fun r => r.id)).contains v.id = true then mapGet tr v.id
          else if v.id = r.id then mapGet tr v.id else t v.id⟩ : MergedEntry))
        = (v.id, ⟨v.id, mapGet vr v.id,
          if ((r :: S).map (fun r => r.id)).contains v.id = true then mapGet tr v.id
          else t v.id⟩)
      rw [List.map_cons, List.contains_cons]
      by_cases h1 : (S.map (fun r => r.id)).contains v.id = true
      · rw [if_pos h1, h1, Bool.or_true, if_pos rfl]
      · rw [if_neg h1]
        rw [show (S.map (fun r => r.id)).contains v.id = false from
          Bool.eq_false_iff.mpr h1, Bool.or_false]
        by_cases h2 : v.id = r.id
        · rw [if_pos h2, if_pos (beq_iff_eq.mpr h2)]
        · rw [if_neg h2, if_neg (by
            rw [show (v.id == r.id) = false from beq_eq_false_iff_ne.mpr h2]
            exact Bool.false_ne_true)]
    · -- keyword-only identifier: appended at the end of the map
      have hv' : (vec.map (fun x => x.id)).contains r.id = false := by
        simpa using hv
      have hnotmem : r.id ∉ vec.map (fun x => x.id) := fun hmem =>
        Bool.false_ne_true (hv'.symm.trans (List.elem_eq_true_of_mem hmem))
      have hget : mapGet (vec.map (fun v => (v.id, ⟨v.id, mapGet vr v.id, t v.id⟩)) ++ B) r.id
          = none := by
        rw [mapGet_append, hgetA, if_neg hv,
          mapGet_eq_none_of_keys B r.id (fun q hq => hSB r (List.mem_cons_self r S) q hq)]
        rfl
      rw [hget]
      show List.foldl _
          (mapSet (vec.map (fun v => (v.id, ⟨v.id, mapGet vr v.id, t v.id⟩)) ++ B) r.id
            (⟨r.id, none, mapGet tr r.id⟩ : MergedEntry)) S = _
      rw [mapSet_of_not_mem _ r.id _ hget, List.append_assoc]
      refine Eq.trans (ih t (B ++ [(r.id, ⟨r.id, none, mapGet tr r.id⟩)])
        (List.nodup_cons.mp hnd).2 ?_ ?_) ?_
      · intro r' hr' q hq
        rcases List.mem_append.mp hq with hq1 | hq2
        · exact hSB r' (List.mem_cons_of_mem r hr') q hq1
        · have hq' : q = (r.id, ⟨r.id, none, mapGet tr r.id⟩) := List.mem_singleton.mp hq2
          subst hq'
          intro he
          have hkey : r.id ∉ S.map (fun x => x.id) := by
            simpa using (List.nodup_cons.mp hnd).1
          exact hkey (by
            show r.id ∈ S.map (fun x => x.id)
            rw [show r.id = r'.id from he]
            exact List.mem_map_of_mem (fun x => x.id) hr')
      · intro q hq
        rcases List.mem_append.mp hq with hq1 | hq2
        · exact hBv q hq1
        · have hq' : q = (r.id, ⟨r.id, none, mapGet tr r.id⟩) := List.mem_singleton.mp hq2
          subst hq'
          exact hv'
      have hfilter : List.filter (fun r => ¬ (vec.map (fun x => x.id)).contains r.id) (r :: S)
          = r :: List.filter (fun r => ¬ (vec.map (fun x => x.id)).contains r.id) S := by
        rw [List.filter_cons, if_pos (by rw [hv']; simp)]
      rw [hfilter, List.map_cons]
      have hfill : (vec.map (fun v => (v.id, (⟨v.id, mapGet vr v.id,
            if (S.map (fun r => r.id)).contains v.id then mapGet tr v.id else t v.id⟩
              : MergedEntry))))
          = vec.map (fun v => (v.id, ⟨v.id, mapGet vr v.id,
            if ((r :: S).map (fun r => r.id)).contains v.id then mapGet tr v.id
            else t v.id⟩)) := by
        refine List.map_congr_left ?_
        intro v hv2
        have hne : (v.id == r.id) = false := by
          have hvm : v.id ∈ vec.map (fun x => x.id) :=
            List.mem_map_of_mem (fun x => x.id) hv2
          by_cases hb : v.id = r.id
          · exact absurd (hb ▸ hvm) hnotmem
          · simpa using hb
        rw [List.map_cons, List.contains_cons, hne, Bool.false_or]
      rw [hfill]
      simp [List.append_assoc]

/-- The `merged` map of `hybridSearch`, under distinct identifiers per list:
the vector results in order (text rank filled in when the keyword list also
contains the identifier), followed by the keyword-only results in order. -/
theorem mergedMap_shape (vec fts : List SR)
    (hv : (vec.map (fun r => r.id)).Nodup) (ht : (fts.map (fun r => r.id)).Nodup) :
    mergedMap vec fts =
      vec.map (fun v => (v.id, ⟨v.id, mapGet (ranksOf vec) v.id,
          if (fts.map (fun r => r.id)).contains v.id then mapGet (ranksOf fts) v.id
          else none⟩))
      ++ (fts.filter (fun r => ¬ (vec.map (fun x => x.id)).contains r.id)).map
          (fun r => (r.id, ⟨r.id, none, mapGet (ranksOf fts) r.id⟩)) := by
  have hunfold : mergedMap vec fts
      = fts.foldl (fun m r =>
          match mapGet m r.id with
          | some e => mapSet m r.id { e with textRank := mapGet (ranksOf fts) r.id }
          | none => mapSet m r.id (⟨r.id, none, mapGet (ranksOf fts) r.id⟩ : MergedEntry))
        (vec.foldl (fun m r =>
          mapSet m r.id (⟨r.id, mapGet (ranksOf vec) r.id, none⟩ : MergedEntry)) []) := rfl
  have hm1 : vec.foldl
      (fun m r => mapSet m r.id (⟨r.id, mapGet (ranksOf vec) r.id, none⟩ : MergedEntry)) []
      = vec.map (fun v => (v.id, (⟨v.id, mapGet (ranksOf vec) v.id, none⟩ : MergedEntry))) := by
    simpa using foldl_mapSet_fresh (fun r : SR => r.id)
      (fun r => (⟨r.id, mapGet (ranksOf vec) r.id, none⟩ : MergedEntry)) vec []
      (fun a _ => rfl) hv
  rw [hunfold, hm1]
  have hmain := ftsFold_shape vec (ranksOf vec) (ranksOf fts) hv fts (fun _ => none) [] ht
    (fun r _ q hq => absurd hq (List.not_mem_nil q))
    (fun q hq => absurd hq (List.not_mem_nil q))
  simpa using hmain

theorem rrfScore_entry_eq (vec fts : List SR)
    (hv : (vec.map (fun r => r.id)).Nodup) (ht : (fts.map (fun r => r.id)).Nodup)
    (i : String) :
    rrfScore ⟨i, mapGet (ranksOf vec) i,
        if (fts.map (fun r => r.id)).contains i then mapGet (ranksOf fts) i else none⟩
      = rrfComponent (vec.map (fun r => r.id)) i + rrfComponent (fts.map (fun r => r.id)) i := by
  unfold rrfScore
  congr 1
  · rw [mapGet_ranksOf vec hv i]
    cases hfi : (vec.map (fun r => r.id)).findIdx? (fun j => j = i) with
    | none => simp [rrfComponent, hfi]
    | some k => simp [rrfComponent, hfi]
  · by_cases hc : (fts.map (fun r => r.id)).contains i = true
    · rw [if_pos hc, mapGet_ranksOf fts ht i]
      cases hfi : (fts.map (fun r => r.id)).findIdx? (fun j => j = i) with
      | none => simp [rrfComponent, hfi]
      | some k => simp [rrfComponent, hfi]
    · rw [if_neg hc]
      have hnone := findIdx?_eq_none_of_not_contains (fts.map (fun r => r.id)) i
        (Bool.eq_false_iff.mpr hc) 0
      simp [rrfComponent, hnone]

theorem rrfScore_ftsonly_eq (vec fts : List SR)
    (ht : (fts.map (fun r => r.id)).Nodup) (i : String)
    (hni : (vec.map (fun r => r.id)).contains i = false) :
    rrfScore ⟨i, none, mapGet (ranksOf fts) i⟩
      = rrfComponent (vec.map (fun r => r.id)) i + rrfComponent (fts.map (fun r => r.id)) i := by
  unfold rrfScore
  have hvnone := findIdx?_eq_none_of_not_contains (vec.map (fun r => r.id)) i
    (by simpa using hni) 0
  rw [mapGet_ranksOf fts ht i]
  cases hfi : (fts.map (fun r => r.id)).findIdx? (fun j => j = i) with
  | none => simp [rrfComponent, hfi, hvnone]
  | some k => simp [rrfComponent, hfi, hvnone]

/-! ## C3 -/

/-- C3: under distinct identifiers per candidate list, `hybridSearch`
computes exactly the specified Reciprocal Rank Fusion ranking — every
distinct chunk identifier of either list scored `1/(60 + vectorRank)` plus
`1/(60 + textRank)` (1-based ranks, 0 for an absent component), merged
without duplication, stably sorted by descending fused score with ties in
first-encounter order (vector list first, then keyword-only additions) and
truncated to `limit`. -/
theorem c3_hybrid_rrf (vecResults ftsResults : List SR) (limit : Nat)
    (hv : (vecResults.map (fun r => r.id)).Nodup)
    (ht : (ftsResults.map (fun r => r.id)).Nodup) :
    hybridSearch vecResults ftsResults limit = rrfSpec vecResults ftsResults limit := by
  have h1 : hybridSearch vecResults ftsResults limit
      = (sortByScoreDesc ((mergedMap vecResults ftsResults).map
          (fun p => SR.mk p.2.id (rrfScore p.2)))).take limit := rfl
  have h2 : rrfSpec vecResults ftsResults limit
      = (sortByScoreDesc ((vecResults.map (fun r => r.id)
          ++ (ftsResults.map (fun r => r.id)).filter
              (fun i => ¬ (vecResults.map (fun r => r.id)).contains i)).map
          (fun i => SR.mk i (rrfComponent (vecResults.map (fun r => r.id)) i
            + rrfComponent (ftsResults.map (fun r => r.id)) i)))).take limit := rfl
  rw [h1, h2]
  congr 2
  rw [mergedMap_shape vecResults ftsResults hv ht]
  rw [List.map_append, List.map_map, List.map_map, List.map_append, List.map_map]
  congr 1
  · refine List.map_congr_left ?_
    intro v _
    show SR.mk v.id (rrfScore ⟨v.id, mapGet (ranksOf vecResults) v.id,
        if (ftsResults.map (fun r => r.id)).contains v.id then mapGet (ranksOf ftsResults) v.id
        else none⟩)
      = SR.mk v.id (rrfComponent (vecResults.map (fun r => r.id)) v.id
          + rrfComponent (ftsResults.map (fun r => r.id)) v.id)
    rw [rrfScore_entry_eq vecResults ftsResults hv ht v.id]
  · rw [List.filter_map]
    rw [List.map_map]
    refine List.map_congr_left ?_
    intro r hr
    have hni : (vecResults.map (fun x => x.id)).contains r.id = false := by
      have := List.of_mem_filter hr
      simpa using this
    show SR.mk r.id (rrfScore ⟨r.id, none, mapGet (ranksOf ftsResults) r.id⟩)
      = SR.mk r.id (rrfComponent (vecResults.map (fun x => x.id)) r.id
          + rrfComponent (ftsResults.map (fun x => x.id)) r.id)
    rw [rrfScore_ftsonly_eq vecResults ftsResults ht r.id hni]

/-- Witness for C3: the hybrid merge of the concrete candidate lists
`vecW = [a, b, c]` and `ftsW = [b, d]` equals the specified fusion. -/
theorem c3_witness :
    ((vecW.map (fun r => r.id)).Nodup ∧ (ftsW.map (fun r => r.id)).Nodup) ∧
    hybridSearch vecW ftsW 3 = rrfSpec vecW ftsW 3 :=
  ⟨⟨by decide, by decide⟩, c3_hybrid_rrf vecW ftsW 3 (by decide) (by decide)⟩

/-! ## C6 -/

/-- The identifiers returned by `searchFTS` are the first `limit` of the
engine ranking (the SQL `LIMIT 3*limit` never cuts below the final `limit`). -/
theorem searchFTS_ids (ranking : List FtsCandidate) (limit : Nat) :
    (searchFTS ranking limit).map (fun r => r.id)
      = (ranking.map (fun r => r.id)).take limit := by
  unfold searchFTS
  rw [List.map_take, List.map_map]
  show (((ranking.take (3 * limit)).map (fun r => r.id)).take limit) = _
  rw [List.map_take, List.take_take]
  congr 1
  omega

theorem mergedMap_nil_vec (fts : List SR) (ht : (fts.map (fun r => r.id)).Nodup) :
    mergedMap [] fts
      = fts.map (fun r => (r.id, ⟨r.id, none, mapGet (ranksOf fts) r.id⟩)) := by
  have := mergedMap_shape [] fts (by simp) ht
  simpa using this

/-- A stable descending insertion sort leaves an already descending-sorted
list unchanged. -/
theorem sortByScoreDesc_of_sorted :
    ∀ (l : List SR), List.Chain' (fun a b => b.score ≤ a.score) l → sortByScoreDesc l = l := by
  intro l
  induction l with
  | nil => intro _; rfl
  | cons x xs ih =>
    intro hch
    show insertDesc x (sortByScoreDesc xs) = x :: xs
    rw [ih hch.tail]
    cases xs with
    | nil => rfl
    | cons y ys =>
      show (if y.score > x.score then y :: insertDesc x ys else x :: y :: ys) = _
      rw [if_neg (not_lt.mpr (List.chain'_cons.mp hch).1)]

theorem findIdx?_self_of_nodup :
    ∀ (l : List String), l.Nodup → ∀ (k : Nat) (hk : k < l.length) (n : Nat),
      l.findIdx? (fun j => j = l.get ⟨k, hk⟩) n = some (k + n) := by
  intro l
  induction l with
  | nil => intro _ k hk; simp at hk
  | cons a l ih =>
    intro hnd k hk n
    cases k with
    | zero =>
      rw [List.findIdx?_cons, if_pos (by simp)]
      simp
    | succ k =>
      have hget : (a :: l).get ⟨k + 1, hk⟩ = l.get ⟨k, by simpa using hk⟩ := rfl
      rw [hget, List.findIdx?_cons, if_neg ?hne]
      case hne =>
        simp only [decide_eq_true_eq]
        intro ha
        exact (List.nodup_cons.mp hnd).1 (ha ▸ List.get_mem l k (by simpa using hk))
      rw [ih (List.nodup_cons.mp hnd).2 k (by simpa using hk) (n + 1)]
      congr 1
      omega

/-- With an empty vector list, the merged score list of `hybridSearch` is
the keyword list scored `1/(60 + position)` in keyword order. -/
theorem degradedList_eq (fts : List SR) (ht : (fts.map (fun r => r.id)).Nodup) :
    (mergedMap [] fts).map (fun p => SR.mk p.2.id (rrfScore p.2))
      = (List.enumFrom 0 fts).map
          (fun p => SR.mk p.2.id (1 / ((60 : ℚ) + ((p.1 + 1 : Nat) : ℚ)))) := by
  rw [mergedMap_nil_vec fts ht, List.map_map]
  refine List.ext_get ?_ ?_
  · simp [List.enumFrom_length]
  · intro n h1 h2
    simp only [List.get_eq_getElem, List.getElem_map, List.getElem_enumFrom]
    have hlen : n < fts.length := by simpa using h1
    have hrank : mapGet (ranksOf fts) (fts[n].id) = some (n + 1) := by
      rw [mapGet_ranksOf fts ht]
      have hget : fts[n].id = (fts.map (fun r => r.id)).get ⟨n, by simpa using hlen⟩ := by
        simp [List.get_eq_getElem, List.getElem_map]
      rw [hget, findIdx?_self_of_nodup (fts.map (fun r => r.id)) ht n (by simpa using hlen) 0]
      rfl
    show SR.mk (fts[n].id) (rrfScore ⟨fts[n].id, none, mapGet (ranksOf fts) (fts[n].id)⟩) = _
    rw [hrank]
    show SR.mk (fts[n].id) (0 + 1 / ((60 : ℚ) + ((n + 1 : Nat) : ℚ))) = _
    rw [zero_add]
    norm_num

theorem chain'_enumFrom_succ {α} (l : List α) :
    ∀ n, List.Chain' (fun p q => q.1 = p.1 + 1) (List.enumFrom n l) := by
  induction l with
  | nil => intro n; simp
  | cons a l ih =>
    intro n
    rw [List.enumFrom_cons]
    cases l with
    | nil => exact List.chain'_singleton _
    | cons b l' => exact List.Chain'.cons rfl (ih (n + 1))

theorem degraded_sorted (fts : List SR) :
    List.Chain' (fun a b => b.score ≤ a.score)
      ((List.enumFrom 0 fts).map
        (fun p => SR.mk p.2.id (1 / ((60 : ℚ) + ((p.1 + 1 : Nat) : ℚ))))) := by
  rw [List.chain'_map]
  refine (chain'_enumFrom_succ fts 0).imp ?_
  intro p q hpq
  show (1 : ℚ) / (60 + ((q.1 + 1 : Nat) : ℚ)) ≤ 1 / (60 + ((p.1 + 1 : Nat) : ℚ))
  apply one_div_le_one_div_of_le
  · positivity
  · rw [hpq]
    push_cast
    linarith

/-- C6: with the vector backend unavailable (vector search returns the empty
result set), `hybridSearch` returns exactly the pure keyword-search results:
the same chunk identifiers in the same order. -/
theorem c6_vector_degradation (ranking : List FtsCandidate) (limit : Nat)
    (h : (ranking.map (fun r => r.id)).Nodup) :
    (hybridSearch searchVectorUnavailable (searchFTS ranking (2 * limit)) limit).map
        (fun r => r.id)
      = (searchFTS ranking limit).map (fun r => r.id) := by
  have hids2 : ((searchFTS ranking (2 * limit)).map (fun r => r.id))
      = (ranking.map (fun r => r.id)).take (2 * limit) := searchFTS_ids ranking (2 * limit)
  have hnd2 : ((searchFTS ranking (2 * limit)).map (fun r => r.id)).Nodup := by
    rw [hids2]
    exact List.Nodup.sublist (List.take_sublist _ _) h
  have h1 : hybridSearch searchVectorUnavailable (searchFTS ranking (2 * limit)) limit
      = (sortByScoreDesc ((mergedMap [] (searchFTS ranking (2 * limit))).map
          (fun p => SR.mk p.2.id (rrfScore p.2)))).take limit := rfl
  rw [h1, degradedList_eq _ hnd2,
    sortByScoreDesc_of_sorted _ (degraded_sorted (searchFTS ranking (2 * limit)))]
  rw [List.map_take, List.map_map]
  have hcomp : ((List.enumFrom 0 (searchFTS ranking (2 * limit))).map
        (fun p => ((fun r => r.id) ∘
          (fun p => SR.mk p.2.id (1 / ((60 : ℚ) + ((p.1 + 1 : Nat) : ℚ))))) p))
      = (searchFTS ranking (2 * limit)).map (fun r => r.id) := by
    have hsnd : (List.enumFrom 0 (searchFTS ranking (2 * limit))).map
        (fun p => p.2.id)
        = ((List.enumFrom 0 (searchFTS ranking (2 * limit))).map Prod.snd).map
            (fun r => r.id) := by
      rw [List.map_map]
      rfl
    show (List.enumFrom 0 (searchFTS ranking (2 * limit))).map (fun p => p.2.id) = _
    rw [hsnd, show List.enumFrom 0 (searchFTS ranking (2 * limit))
        = (searchFTS ranking (2 * limit)).enum from rfl, List.enum_map_snd]
  rw [show ((List.enumFrom 0 (searchFTS ranking (2 * limit))).map
        ((fun r => r.id) ∘ (fun p => SR.mk p.2.id (1 / ((60 : ℚ) + ((p.1 + 1 : Nat) : ℚ))))))
      = (searchFTS ranking (2 * limit)).map (fun r => r.id) from hcomp]
  rw [hids2, searchFTS_ids ranking limit, List.take_take]
  congr 1
  omega

/-- Witness for C6: degraded hybrid search over a concrete four-candidate
engine ranking returns the pure keyword top-1. -/
theorem c6_witness :
    (rankW.map (fun r => r.id)).Nodup ∧
    (hybridSearch searchVectorUnavailable (searchFTS rankW (2 * 1)) 1).map (fun r => r.id)
      = (searchFTS rankW 1).map (fun r => r.id) :=
  ⟨by decide, c6_vector_degradation rankW 1 (by decide)⟩

/-! ## Chunker lemmas: coverage, slices, overlap -/

theorem buildChunk_lines (hashFn : String → String) (lines : List String)
    (s e : Nat) (p src : String) (md : Metadata) :
    (buildChunk hashFn lines s e p src md).lines = lines := rfl

theorem buildChunk_startLine (hashFn : String → String) (lines : List String)
    (s e : Nat) (p src : String) (md : Metadata) :
    (buildChunk hashFn lines s e p src md).startLine = s := rfl

theorem buildChunk_endLine (hashFn : String → String) (lines : List String)
    (s e : Nat) (p src : String) (md : Metadata) :
    (buildChunk hashFn lines s e p src md).endLine = e := rfl

theorem overlapTake_append (budget : Nat) :
    ∀ (r : List String) (acc : Nat), ∃ t, r = overlapTake budget acc r ++ t := by
  intro r
  induction r with
  | nil => intro _; exact ⟨[], rfl⟩
  | cons l rest ih =>
    intro acc
    unfold overlapTake
    by_cases h : acc + l.length + 1 > budget
    · rw [if_pos h]
      exact ⟨l :: rest, rfl⟩
    · rw [if_neg h]
      obtain ⟨t, ht⟩ := ih (acc + l.length + 1)
      exact ⟨t, by rw [List.cons_append, ← ht]⟩

theorem getOverlap_suffix (buf : List String) (s i : Nat) :
    ∃ pre, buf = pre ++ (getOverlap buf s i).1 := by
  obtain ⟨t, ht⟩ := overlapTake_append CHUNK_OVERLAP_CHARS buf.reverse 0
  refine ⟨t.reverse, ?_⟩
  show buf = t.reverse ++ (overlapTake CHUNK_OVERLAP_CHARS 0 buf.reverse).reverse
  calc buf = buf.reverse.reverse := (List.reverse_reverse buf).symm
    _ = (overlapTake CHUNK_OVERLAP_CHARS 0 buf.reverse ++ t).reverse := by rw [← ht]
    _ = t.reverse ++ (overlapTake CHUNK_OVERLAP_CHARS 0 buf.reverse).reverse :=
        List.reverse_append _ _

theorem getOverlap_snd (buf : List String) (s i : Nat) :
    (getOverlap buf s i).2 = i + 1 - (getOverlap buf s i).1.length := rfl

theorem overlapTake_sum (budget : Nat) :
    ∀ (r : List String) (acc : Nat), acc ≤ budget →
      acc + lineCharSum (overlapTake budget acc r) ≤ budget := by
  intro r
  induction r with
  | nil =>
    intro acc h
    simpa [overlapTake, lineCharSum] using h
  | cons l rest ih =>
    intro acc h
    unfold overlapTake
    by_cases hb : acc + l.length + 1 > budget
    · rw [if_pos hb]
      simpa [lineCharSum] using h
    · rw [if_neg hb]
      have hrec := ih (acc + l.length + 1) (by omega)
      simp only [lineCharSum, List.map_cons, List.sum_cons] at hrec ⊢
      omega

theorem overlapTake_cons_ne_nil (budget : Nat) (l : String) (rest : List String)
    (h : l.length + 1 ≤ budget) :
    overlapTake budget 0 (l :: rest) ≠ [] := by
  unfold overlapTake
  rw [if_neg (by omega)]
  simp

theorem lineCharSum_pos (l : List String) (h : l ≠ []) : 0 < lineCharSum l := by
  cases l with
  | nil => exact absurd rfl h
  | cons a t =>
    simp only [lineCharSum, List.map_cons, List.sum_cons]
    omega

/-- The central invariant of the chunking loop. From a consistent state
(`buf` is exactly the slice of the original lines from `start` to `i`,
1-indexed), the emitted chunks (a) concatenate, after dropping each chunk's
leading overlap, to the remaining suffix of the file, and (b) each carry as
body exactly the 1-indexed inclusive line range `startLine..endLine` of the
original file. -/
theorem chunkLoop_main (hashFn : String → String) (relPath source : String) (md : Metadata)
    (isCode : Bool) (maxChars : Nat) (orig : List String) :
    ∀ (rest : List String), ∀ (buf : List String) (start cc i : Nat),
      rest = orig.drop i → i ≤ orig.length →
      buf = (orig.drop (start - 1)).take (i + 1 - start) →
      1 ≤ start → start ≤ i + 1 →
      (∀ prevEnd, start - 1 ≤ prevEnd → prevEnd ≤ i →
        nonOverlapCat prevEnd
            (chunkLoop hashFn relPath source md isCode maxChars rest buf start cc i)
          = orig.drop prevEnd) ∧
      (∀ c ∈ chunkLoop hashFn relPath source md isCode maxChars rest buf start cc i,
        c.lines = (orig.drop (c.startLine - 1)).take (c.endLine + 1 - c.startLine) ∧
        1 ≤ c.startLine ∧ c.startLine ≤ c.endLine ∧ c.endLine ≤ orig.length) := by
  intro rest
  induction rest with
  | nil =>
    intro buf start cc i hrest hi hbuf hs1 hs2
    have hdrop : orig.drop i = [] := hrest.symm
    have hieq : i = orig.length := by
      have := List.drop_eq_nil_iff.mp hdrop
      omega
    simp only [chunkLoop]
    by_cases hb : buf.length > 0
    · rw [if_pos hb]
      have hfull : buf = orig.drop (start - 1) := by
        rw [hbuf]
        refine List.take_of_length_le ?_
        rw [List.length_drop]
        omega
      constructor
      · intro prevEnd hp1 hp2
        simp only [nonOverlapCat, buildChunk_lines, buildChunk_startLine, buildChunk_endLine,
          List.append_nil]
        rw [hfull, List.drop_drop]
        congr 1
        omega
      · intro c hc
        have hceq : c = buildChunk hashFn buf start i relPath source md :=
          List.mem_singleton.mp hc
        subst hceq
        rw [buildChunk_lines, buildChunk_startLine, buildChunk_endLine]
        have hblen : buf.length = i + 1 - start := by
          rw [hbuf, List.length_take, List.length_drop]
          omega
        refine ⟨hbuf, hs1, ?_, by omega⟩
        omega
    · rw [if_neg hb]
      have hnil : buf = [] := List.length_eq_zero.mp (by omega)
      rw [hnil] at hbuf
      constructor
      · intro prevEnd hp1 hp2
        have hdropPE : orig.drop prevEnd = [] := by
          rcases List.take_eq_nil_iff.mp hbuf.symm with h0 | h0
          · refine List.drop_eq_nil_iff.mpr ?_
            omega
          · have := List.drop_eq_nil_iff.mp h0
            refine List.drop_eq_nil_iff.mpr ?_
            omega
        rw [hdropPE]
        rfl
      · intro c hc
        exact absurd hc (List.not_mem_nil c)
  | cons line rest ihr =>
    intro buf start cc i hrest hi hbuf hs1 hs2
    have hlt : i < orig.length := by
      by_contra hcon
      have hdrop : orig.drop i = [] := List.drop_eq_nil_iff.mpr (by omega)
      rw [hdrop] at hrest
      exact List.noConfusion hrest
    have hcons := List.drop_eq_getElem_cons hlt
    rw [hcons] at hrest
    have hline : line = orig[i] := (List.cons_eq_cons.mp hrest).1
    have hrest2 : rest = orig.drop (i + 1) := (List.cons_eq_cons.mp hrest).2
    have hblen : buf.length = i + 1 - start := by
      rw [hbuf, List.length_take, List.length_drop]
      omega
    have hbufx : buf ++ [line] = (orig.drop (start - 1)).take (i + 1 + 1 - start) := by
      have e1 : i + 1 + 1 - start = (i + 1 - start) + 1 := by omega
      rw [e1, List.take_succ, ← hbuf]
      congr 1
      rw [List.getElem?_drop]
      have e2 : (start - 1) + (i + 1 - start) = i := by omega
      rw [e2, List.getElem?_eq_getElem hlt, hline]
      rfl
    have hpush : ∀ cc2,
        (∀ prevEnd, start - 1 ≤ prevEnd → prevEnd ≤ i →
          nonOverlapCat prevEnd
            (chunkLoop hashFn relPath source md isCode maxChars rest (buf ++ [line]) start cc2
              (i + 1)) = orig.drop prevEnd) ∧
        (∀ c ∈ chunkLoop hashFn relPath source md isCode maxChars rest (buf ++ [line]) start cc2
            (i + 1),
          c.lines = (orig.drop (c.startLine - 1)).take (c.endLine + 1 - c.startLine) ∧
          1 ≤ c.startLine ∧ c.startLine ≤ c.endLine ∧ c.endLine ≤ orig.length) := by
      intro cc2
      have hih := ihr (buf ++ [line]) start cc2 (i + 1) hrest2 (by omega) hbufx hs1 (by omega)
      exact ⟨fun prevEnd hp1 hp2 => hih.1 prevEnd hp1 (by omega), hih.2⟩
    simp only [chunkLoop]
    by_cases hcond : cc + (line.length + 1) > maxChars ∧ buf.length > 0
    · rw [if_pos hcond]
      by_cases hbrk : (isCode && (isFunctionDecl line || isClassDecl line || isTypeDecl line
            || isConstFunc line)
          || (!isCode && (isHeading line || isBlank line))
          || decide (5 * cc > 6 * maxChars)) = true
      · rw [if_pos hbrk]
        -- break: emit the buffer as a chunk and seed the next one with overlap
        set ov := getOverlap buf start i with hovd
        obtain ⟨pre, hpre⟩ := getOverlap_suffix buf start i
        have hsnd := getOverlap_snd buf start i
        rw [← hovd] at hpre hsnd
        have hlenp : buf.length = pre.length + ov.1.length := by
          have hx := congrArg List.length hpre
          rw [List.length_append] at hx
          exact hx
        have hkle : ov.1.length ≤ i := by omega
        have hdropL : buf.drop pre.length = ov.1 := by
          rw [hpre]
          exact List.drop_left pre ov.1
        have hov1 : ov.1 = (orig.drop (i - ov.1.length)).take ov.1.length := by
          conv_lhs => rw [← hdropL]
          rw [hbuf, List.drop_take, List.drop_drop]
          congr 1
          · omega
          · congr 1
            omega
        have hbufx2 : ov.1 ++ [line]
            = (orig.drop (i - ov.1.length)).take (ov.1.length + 1) := by
          rw [List.take_succ, ← hov1]
          congr 1
          rw [List.getElem?_drop]
          have e3 : i - ov.1.length + ov.1.length = i := by omega
          rw [e3, List.getElem?_eq_getElem hlt, hline]
          rfl
        have hs1' : 1 ≤ ov.2 := by
          rw [hsnd]
          omega
        have hs2' : ov.2 ≤ (i + 1) + 1 := by
          rw [hsnd]
          omega
        have hbufeq : ov.1 ++ [line] = (orig.drop (ov.2 - 1)).take ((i + 1) + 1 - ov.2) := by
          rw [hsnd]
          have e4 : i + 1 - ov.1.length - 1 = i - ov.1.length := by omega
          have e5 : i + 1 + 1 - (i + 1 - ov.1.length) = ov.1.length + 1 := by omega
          rw [e4, e5]
          exact hbufx2
        have hih := ihr (ov.1 ++ [line]) ov.2 (lineChars ov.1 + (line.length + 1)) (i + 1)
          hrest2 (by omega) hbufeq hs1' hs2'
        constructor
        · intro prevEnd hp1 hp2
          simp only [nonOverlapCat, buildChunk_lines, buildChunk_startLine, buildChunk_endLine]
          have hcover := hih.1 i (by omega) (by omega)
          rw [hcover]
          have hdropbuf : buf.drop (prevEnd + 1 - start)
              = (orig.drop prevEnd).take (i - prevEnd) := by
            rw [hbuf, List.drop_take, List.drop_drop]
            congr 1
            · omega
            · congr 1
              omega
          rw [hdropbuf]
          have hdropi : orig.drop i = (orig.drop prevEnd).drop (i - prevEnd) := by
            rw [List.drop_drop]
            congr 1
            omega
          rw [hdropi, List.take_append_drop]
        · intro c hc
          rcases List.mem_cons.mp hc with hh | ht2
          · subst hh
            rw [buildChunk_lines, buildChunk_startLine, buildChunk_endLine]
            refine ⟨hbuf, hs1, by omega, by omega⟩
          · exact hih.2 c ht2
      · rw [if_neg hbrk]
        exact hpush _
    · rw [if_neg hcond]
      exact hpush _

theorem getOverlap_fst (buf : List String) (s i : Nat) :
    (getOverlap buf s i).1 = (overlapTake CHUNK_OVERLAP_CHARS 0 buf.reverse).reverse := rfl

theorem lineCharSum_reverse (l : List String) : lineCharSum l.reverse = lineCharSum l := by
  unfold lineCharSum
  rw [List.map_reverse, List.sum_reverse]

theorem chunkFileLines_pos (hashFn : String → String) (lines : List String)
    (relPath source : String) (h : ¬ lines.length = 0) :
    chunkFileLines hashFn lines relPath source
      = chunkLoop hashFn relPath source (deriveMetadata relPath source)
          ((deriveMetadata relPath source).language == some "typescript"
            || (deriveMetadata relPath source).language == some "javascript")
          (if ((deriveMetadata relPath source).language == some "typescript"
              || (deriveMetadata relPath source).language == some "javascript") = true
            then 1200 else CHUNK_MAX_CHARS)
          lines [] 1 0 0 := by
  unfold chunkFileLines
  rw [if_neg h]

/-! ## C2 -/

/-- **C2.** Chunk coverage: for every input file, the first chunk's lines
followed by each subsequent chunk's non-overlapping suffix (the lines after
the leading overlap carried from the predecessor, i.e. after its predecessor's
end line) concatenate to exactly the file's original line sequence. -/
theorem c2_chunk_coverage (hashFn : String → String) (content relPath source : String) :
    nonOverlapCat 0 (chunkFile hashFn content relPath source) = splitLines content := by
  show nonOverlapCat 0 (chunkFileLines hashFn (splitLines content) relPath source)
      = splitLines content
  by_cases h0 : (splitLines content).length = 0
  · have hnil : splitLines content = [] := List.length_eq_zero.mp h0
    unfold chunkFileLines
    rw [if_pos h0, hnil]
    rfl
  · rw [chunkFileLines_pos hashFn (splitLines content) relPath source h0]
    have h1 := (chunkLoop_main hashFn relPath source (deriveMetadata relPath source)
        ((deriveMetadata relPath source).language == some "typescript"
          || (deriveMetadata relPath source).language == some "javascript")
        (if ((deriveMetadata relPath source).language == some "typescript"
            || (deriveMetadata relPath source).language == some "javascript") = true
          then 1200 else CHUNK_MAX_CHARS)
        (splitLines content) (splitLines content) [] 1 0 0
        (List.drop_zero _).symm (Nat.zero_le _) (by simp) (le_refl 1) (by omega)).1 0
        (by omega) (by omega)
    rw [List.drop_zero] at h1
    exact h1

/-! ## C9 -/

/-- **C9, counterexample.** On the one-line file `"a"` the single emitted
chunk has `startLine = endLine = 1` and body `["a"]`: under the claim's
exclusive reading (body = lines `startLine .. endLine - 1`) the body would
have to be empty, so the claim's slice equation fails. -/
theorem c9_counterexample :
    ¬ ∀ c ∈ chunkFile hashId "a" "x.md" "docs",
        c.lines = ((splitLines "a").drop (c.startLine - 1)).take (c.endLine - c.startLine) := by
  decide

/-- **C9, amended.** Both bounds of a chunk are inclusive: every chunk
emitted by the chunker carries as its body exactly the input lines numbered
`startLine` through `endLine` (1-indexed, both ends included, so the slice
has length `endLine + 1 - startLine`), with `1 ≤ startLine ≤ endLine ≤`
the number of lines. In particular the line numbered `endLine` IS part of
the chunk. -/
theorem c9_endline_inclusive (hashFn : String → String) (content relPath source : String)
    (c : Chunk) (hc : c ∈ chunkFile hashFn content relPath source) :
    c.lines = ((splitLines content).drop (c.startLine - 1)).take (c.endLine + 1 - c.startLine) ∧
    1 ≤ c.startLine ∧ c.startLine ≤ c.endLine ∧ c.endLine ≤ (splitLines content).length := by
  have hc2 : c ∈ chunkFileLines hashFn (splitLines content) relPath source := hc
  by_cases h0 : (splitLines content).length = 0
  · unfold chunkFileLines at hc2
    rw [if_pos h0] at hc2
    exact absurd hc2 (List.not_mem_nil c)
  · rw [chunkFileLines_pos hashFn (splitLines content) relPath source h0] at hc2
    exact (chunkLoop_main hashFn relPath source (deriveMetadata relPath source)
        ((deriveMetadata relPath source).language == some "typescript"
          || (deriveMetadata relPath source).language == some "javascript")
        (if ((deriveMetadata relPath source).language == some "typescript"
            || (deriveMetadata relPath source).language == some "javascript") = true
          then 1200 else CHUNK_MAX_CHARS)
        (splitLines content) (splitLines content) [] 1 0 0
        (List.drop_zero _).symm (Nat.zero_le _) (by simp) (le_refl 1) (by omega)).2 c hc2

/-- Witness for C9's amended theorem at the one-line file `"a"`. -/
theorem c9_witness :
    c9chunk.lines = ((splitLines "a").drop (c9chunk.startLine - 1)).take
        (c9chunk.endLine + 1 - c9chunk.startLine) ∧
    1 ≤ c9chunk.startLine ∧ c9chunk.startLine ≤ c9chunk.endLine ∧
    c9chunk.endLine ≤ (splitLines "a").length :=
  c9_endline_inclusive hashId "a" "x.md" "docs" c9chunk (by decide)

/-! ## C7 -/

theorem splitOnCharAux_replicate (sep c : Char) (hne : ¬ c = sep) (rest : List Char) :
    ∀ (n : Nat) (acc : List Char),
      splitOnCharAux sep (List.replicate n c ++ sep :: rest) acc
        = String.mk (acc.reverse ++ List.replicate n c) :: splitOnCharAux sep rest [] := by
  intro n
  induction n with
  | zero =>
    intro acc
    simp [splitOnCharAux]
  | succ m ih =>
    intro acc
    rw [List.replicate_succ, List.cons_append]
    show splitOnCharAux sep (c :: (List.replicate m c ++ sep :: rest)) acc = _
    simp only [splitOnCharAux]
    rw [if_neg hne, ih (c :: acc)]
    congr 2
    rw [List.reverse_cons, List.append_assoc]
    congr 1

theorem splitLines_ctC7 : splitLines ctC7 = ["b", bigLine, "", "c"] := by
  have h1 : splitOnCharAux '\n' ('b' :: '\n' :: (List.replicate 1598 'a'
        ++ '\n' :: '\n' :: ['c'])) []
      = "b" :: splitOnCharAux '\n' (List.replicate 1598 'a' ++ '\n' :: '\n' :: ['c']) [] := rfl
  have h2 : splitOnCharAux '\n' ('\n' :: ['c']) [] = ["", "c"] := rfl
  show splitOnCharAux '\n' ('b' :: '\n' :: (List.replicate 1598 'a'
      ++ '\n' :: '\n' :: ['c'])) [] = ["b", bigLine, "", "c"]
  rw [h1, splitOnCharAux_replicate '\n' 'a' (by decide) ('\n' :: ['c']) 1598 [], h2,
    List.reverse_nil, List.nil_append]
  rfl

set_option maxRecDepth 100000 in
theorem chunkFile_ctC7 : chunkFile hashId ctC7 "x.md" "docs" = [c7fst, c7snd] := by
  show chunkFileLines hashId (splitLines ctC7) "x.md" "docs" = [c7fst, c7snd]
  rw [splitLines_ctC7]
  rfl

/-- The overlap-chain invariant of the chunking loop: at any state whose
buffer spans at most the lines read so far, (a) the head of the output, if
any, starts at the current chunk start and has the current buffer as a line
prefix, and (b) consecutive output chunks satisfy the overlap guarantee
`overlapOk`. -/
theorem chunkLoop_chain (hashFn : String → String) (relPath source : String) (md : Metadata)
    (isCode : Bool) (maxChars : Nat) :
    ∀ (rest : List String), ∀ (buf : List String) (start cc i : Nat),
      buf.length ≤ i + 1 →
      (∀ c0 cs,
        chunkLoop hashFn relPath source md isCode maxChars rest buf start cc i = c0 :: cs →
        c0.startLine = start ∧ ∃ tl, c0.lines = buf ++ tl) ∧
      List.Chain' overlapOk
        (chunkLoop hashFn relPath source md isCode maxChars rest buf start cc i) := by
  intro rest
  induction rest with
  | nil =>
    intro buf start cc i hinv
    simp only [chunkLoop]
    by_cases hb : buf.length > 0
    · rw [if_pos hb]
      refine ⟨?_, List.chain'_singleton _⟩
      intro c0 cs heq
      have h0 : c0 = buildChunk hashFn buf start i relPath source md :=
        ((List.cons_eq_cons.mp heq).1).symm
      subst h0
      exact ⟨buildChunk_startLine hashFn buf start i relPath source md,
        ⟨[], by rw [buildChunk_lines, List.append_nil]⟩⟩
    · rw [if_neg hb]
      exact ⟨fun c0 cs heq => List.noConfusion heq, List.chain'_nil⟩
  | cons line rest ihr =>
    intro buf start cc i hinv
    have hpushc : ∀ cc2,
        (∀ c0 cs,
          chunkLoop hashFn relPath source md isCode maxChars rest (buf ++ [line]) start cc2
              (i + 1) = c0 :: cs →
          c0.startLine = start ∧ ∃ tl, c0.lines = buf ++ tl) ∧
        List.Chain' overlapOk
          (chunkLoop hashFn relPath source md isCode maxChars rest (buf ++ [line]) start cc2
            (i + 1)) := by
      intro cc2
      have hih := ihr (buf ++ [line]) start cc2 (i + 1)
        (by
          rw [List.length_append]
          simp only [List.length_singleton]
          omega)
      refine ⟨?_, hih.2⟩
      intro c0 cs heq
      obtain ⟨h1, tl, h2⟩ := hih.1 c0 cs heq
      exact ⟨h1, [line] ++ tl, by rw [h2, List.append_assoc]⟩
    simp only [chunkLoop]
    by_cases hcond : cc + (line.length + 1) > maxChars ∧ buf.length > 0
    · rw [if_pos hcond]
      by_cases hbrk : (isCode && (isFunctionDecl line || isClassDecl line || isTypeDecl line
            || isConstFunc line)
          || (!isCode && (isHeading line || isBlank line))
          || decide (5 * cc > 6 * maxChars)) = true
      · rw [if_pos hbrk]
        set ov := getOverlap buf start i with hovd
        have hsnd := getOverlap_snd buf start i
        obtain ⟨pre, hpre⟩ := getOverlap_suffix buf start i
        rw [← hovd] at hsnd hpre
        have hlenp : buf.length = pre.length + ov.1.length := by
          have hx := congrArg List.length hpre
          rw [List.length_append] at hx
          exact hx
        have hih := ihr (ov.1 ++ [line]) ov.2 (lineChars ov.1 + (line.length + 1)) (i + 1)
          (by
            rw [List.length_append]
            simp only [List.length_singleton]
            omega)
        constructor
        · intro c0 cs heq
          have h0 : c0 = buildChunk hashFn buf start i relPath source md :=
            ((List.cons_eq_cons.mp heq).1).symm
          subst h0
          exact ⟨buildChunk_startLine hashFn buf start i relPath source md,
            ⟨[], by rw [buildChunk_lines, List.append_nil]⟩⟩
        · cases htail : chunkLoop hashFn relPath source md isCode maxChars rest
              (ov.1 ++ [line]) ov.2 (lineChars ov.1 + (line.length + 1)) (i + 1) with
          | nil =>
            exact List.chain'_singleton _
          | cons c1 cs =>
            have hch := hih.2
            rw [htail] at hch
            obtain ⟨hstart1, tl, hlines1⟩ := hih.1 c1 cs htail
            have hov : overlapRegion (buildChunk hashFn buf start i relPath source md) c1
                = ov.1 := by
              unfold overlapRegion
              rw [buildChunk_endLine, hstart1, hlines1, hsnd]
              have e1 : i + 1 - (i + 1 - ov.1.length) = ov.1.length := by omega
              rw [e1, List.append_assoc, List.take_left]
            refine List.chain'_cons.mpr ⟨⟨?_, ?_⟩, hch⟩
            · rw [hov]
              have hts := overlapTake_sum CHUNK_OVERLAP_CHARS buf.reverse 0 (Nat.zero_le _)
              have hrev : lineCharSum ov.1
                  = lineCharSum (overlapTake CHUNK_OVERLAP_CHARS 0 buf.reverse) := by
                rw [hovd, getOverlap_fst, lineCharSum_reverse]
              omega
            · intro l hl hfit
              rw [buildChunk_lines] at hl
              rw [hov]
              apply lineCharSum_pos
              intro hnil
              rw [hovd, getOverlap_fst] at hnil
              have hnil2 : overlapTake CHUNK_OVERLAP_CHARS 0 buf.reverse = [] :=
                List.reverse_eq_nil_iff.mp hnil
              have hrevh : buf.reverse.head? = some l := by
                rw [List.head?_reverse]
                exact hl
              cases hrc : buf.reverse with
              | nil =>
                rw [hrc] at hrevh
                exact Option.noConfusion hrevh
              | cons a t =>
                rw [hrc] at hrevh
                have ha : a = l := by simpa using hrevh
                rw [hrc] at hnil2
                exact overlapTake_cons_ne_nil CHUNK_OVERLAP_CHARS a t
                  (by rw [ha]; exact hfit) hnil2
      · rw [if_neg hbrk]
        exact hpushc _
    · rw [if_neg hcond]
      exact hpushc _

/-- **C7, counterexample.** On the file `"b\n" ++ (1598 chars) ++ "\n\nc"`
the break happens after line 2 (so the source has ≥ 2 lines before the break
point), yet the second chunk's leading overlap region is empty: the
1598-character line 2 alone exceeds the 200-character budget, so `getOverlap`
carries nothing over. The claim's positivity condition fails. -/
theorem c7_counterexample :
    ¬ List.Chain' overlapOkClaim (chunkFile hashId ctC7 "x.md" "docs") := by
  rw [chunkFile_ctC7]
  intro hch
  have h := (List.chain'_cons.mp hch).1
  have hend : (2 : Nat) ≤ c7fst.endLine := by decide
  have h2 := h.2 hend
  have hreg : overlapRegion c7fst c7snd = [] := rfl
  rw [hreg] at h2
  exact absurd h2 (by decide)

/-- **C7, amended.** For every pair of consecutive chunks produced by
`chunkFile`, the character count of the successor's leading overlap region
(its lines up to and including the predecessor's end line, counted as length
plus one per line) is at most the 200-character overlap budget
`CHUNK_OVERLAP_CHARS`; and it is strictly positive whenever the
predecessor's LAST LINE alone fits in the budget (its length plus one is at
most 200) — not, as claimed, whenever the source has ≥ 2 lines before the
break point: a single oversized line just before the break yields an empty
overlap. -/
theorem c7_overlap_bound (hashFn : String → String) (content relPath source : String) :
    List.Chain' overlapOk (chunkFile hashFn content relPath source) := by
  show List.Chain' overlapOk (chunkFileLines hashFn (splitLines content) relPath source)
  by_cases h0 : (splitLines content).length = 0
  · unfold chunkFileLines
    rw [if_pos h0]
    exact List.chain'_nil
  · rw [chunkFileLines_pos hashFn (splitLines content) relPath source h0]
    exact (chunkLoop_chain hashFn relPath source (deriveMetadata relPath source)
        ((deriveMetadata relPath source).language == some "typescript"
          || (deriveMetadata relPath source).language == some "javascript")
        (if ((deriveMetadata relPath source).language == some "typescript"
            || (deriveMetadata relPath source).language == some "javascript") = true
          then 1200 else CHUNK_MAX_CHARS)
        (splitLines content) [] 1 0 0 (by simp)).2

/-! ## C8 -/

/-- C8 (code bug, evaluation at the failing input): `chunkFile` on the empty
content string does NOT return an empty chunk list. JavaScript
`''.split('\n')` yields `['']`, so the guard `lines.length === 0` — the
code's own attempt at this edge case, which would return `[]` — is dead, and
the empty file produces one chunk spanning the single empty line. -/
theorem c8_empty_file_yields_one_chunk :
    splitLines "" = [""] ∧
    chunkFileLines hashId [] "a.md" "docs" = [] ∧
    (chunkFile hashId "" "a.md" "docs").map (fun c => (c.startLine, c.endLine, c.lines))
      = [(1, 1, [""])] := by
  decide

end OpenClawKB
